import Mathlib

/-!
Verification of the text-processing scripts of the Bible_code repository.

The Python sources are shallowly embedded: strings are lists of characters,
pure functions become Lean functions, the row-scanning loops become folds
over explicit state, and Python float arithmetic on word-overlap ratios is
modelled exactly over ℚ (all ratios compared in the scripts are quotients of
small word counts, far below the resolution at which IEEE doubles could
disagree with exact rationals).
-/

/-- Strings are modelled as lists of characters. -/
abbrev Str := List Char

/-- Python's whitespace class (for `\s`, `str.split()` and `str.strip()`),
modelled over its ASCII members. -/
def isPySpace (c : Char) : Bool :=
  c == ' ' || c == '\t' || c == '\n' || c == '\r' || c == '\x0b' || c == '\x0c'

/-- Python's regex word character `\w`, modelled as ASCII alphanumeric or
underscore. -/
def isWordChar (c : Char) : Bool := c.isAlphanum || c == '_'

/-- The apostrophe variants listed in `normalize_apostrophes` (identical in
`30_subheadfinder.py` and `30DatabaseBuilder.py`):
` ' ‘ ’ ' ` ´ ʼ ′ ՚ ׳ ＇ `. -/
def apostropheVariants : List Char :=
  ['‘', '’', '\u0027', '`', '´', 'ʼ', '′',
   '՚', '׳', '＇']

/-- The punctuation characters kept by the character whitelist of
`clean_text_content`'s regex `[^\w\s\-–—:;,.!?()' ...]`. -/
def punctWhitelist : List Char :=
  ['-', '–', '—', ':', ';', ',', '.', '!', '?', '(', ')']

/-- A character survives `clean_text_content`'s whitelist regex. -/
def keepChar (c : Char) : Bool :=
  isWordChar c || isPySpace c || punctWhitelist.contains c ||
    apostropheVariants.contains c

/-- Model of `re.sub(r'\s+', ' ', text)`: collapse every whitespace run to one space.
The flag records whether we are inside a whitespace run. -/
def collapseAux : Bool → Str → Str
  | _, [] => []
  | true, c :: rest =>
    if isPySpace c then collapseAux true rest else c :: collapseAux false rest
  | false, c :: rest =>
    if isPySpace c then ' ' :: collapseAux true rest
    else c :: collapseAux false rest

/-- Python `str.strip()`: drop leading and trailing whitespace. -/
def stripEnds (s : Str) : Str :=
  ((s.dropWhile isPySpace).reverse.dropWhile isPySpace).reverse

/-- Function `clean_text_content` from `30_subheadfinder.py` / `30DatabaseBuilder.py`:
whitelist filter, whitespace collapsing, trimming. -/
def clean_text_content (s : Str) : Str :=
  if s = [] then []
  else stripEnds (collapseAux false (s.filter keepChar))

/-- One replacement pass of `normalize_apostrophes`: each apostrophe variant
becomes the ASCII apostrophe.  The Python function performs ten successive
`str.replace` calls; since every variant maps to `'` (itself a variant that
maps to itself) the composition equals this single character map. -/
def naChar (c : Char) : Char :=
  if apostropheVariants.contains c then '\u0027' else c

/-- Function `normalize_apostrophes` from both scripts. -/
def normalize_apostrophes (s : Str) : Str := s.map naChar

/-- The full normalization named by the spec: character-whitelist stripping,
whitespace collapsing, trimming, then apostrophe unification — exactly
`normalize_apostrophes(clean_text_content(x))` as composed in the matchers. -/
def normText (s : Str) : Str := normalize_apostrophes (clean_text_content s)

/-- The first character, if any, is not whitespace. -/
def headNotWs : Str → Bool
  | [] => true
  | c :: _ => !isPySpace c

/-- The last character, if any, is not whitespace. -/
def noTrailWs : Str → Bool
  | [] => true
  | [c] => !isPySpace c
  | _ :: c :: rest => noTrailWs (c :: rest)

/-- No two adjacent whitespace characters. -/
def noTwoWs : Str → Bool
  | [] => true
  | [_] => true
  | a :: b :: rest => !(isPySpace a && isPySpace b) && noTwoWs (b :: rest)

/-- Every whitespace character is a plain space. -/
def wsAllSpace (s : Str) : Bool := s.all (fun c => !isPySpace c || c == ' ')

/-- Shape invariant of `clean_text_content`'s output: all characters pass the
whitelist, whitespace is single interior spaces, and the ends are trimmed. -/
def cleanShaped (s : Str) : Prop :=
  (∀ c ∈ s, keepChar c = true) ∧ wsAllSpace s = true ∧ noTwoWs s = true ∧
    headNotWs s = true ∧ noTrailWs s = true

/-- Python `str.lower()`, modelled over ASCII. -/
def lowerStr (s : Str) : Str := s.map Char.toLower

/-- Helper of `splitWs`: flush the (reversed) current word if nonempty. -/
def splitFlush (cur : Str) (acc : List Str) : List Str :=
  if cur.isEmpty then acc else acc ++ [cur.reverse]

/-- Worker of `splitWs`; `cur` holds the current word reversed. -/
def splitGo : Str → Str → List Str → List Str
  | [], cur, acc => splitFlush cur acc
  | c :: rest, cur, acc =>
    if isPySpace c then splitGo rest [] (splitFlush cur acc)
    else splitGo rest (c :: cur) acc

/-- Python `str.split()` with no argument: maximal nonempty runs of
non-whitespace characters. -/
def splitWs (s : Str) : List Str := splitGo s [] []

/-- Python `set(s.split())`, as a deduplicated word list. -/
def wordSet (s : Str) : List Str := (splitWs s).dedup

/-- Cardinality of a set intersection: members of the (deduplicated) first
list that also occur in the second. -/
def interCard (a b : List Str) : Nat :=
  (a.filter (fun w => b.contains w)).length

/-- Decides `(c:ℚ)/d < (a:ℚ)/b` by integer arithmetic. -/
def divLtB (c d a b : Nat) : Bool :=
  if b = 0 then false
  else if d = 0 then decide (0 < a)
  else decide (c * b < a * d)

instance instDecDivLtQ (c d a b : Nat) :
    Decidable ((c:ℚ)/(d:ℚ) < (a:ℚ)/(b:ℚ)) :=
  decidable_of_iff (divLtB c d a b = true) (Iff.symm (by
    unfold divLtB
    by_cases hb : b = 0
    · subst hb
      simp only [Nat.cast_zero, div_zero, if_pos rfl]
      constructor
      · intro h
        exact absurd h (not_lt.mpr (div_nonneg (Nat.cast_nonneg c) (Nat.cast_nonneg d)))
      · intro h; exact absurd h (by simp)
    · rw [if_neg hb]
      have hb' : (0:ℚ) < (b:ℚ) := by
        have : 0 < b := Nat.pos_of_ne_zero hb
        exact_mod_cast this
      by_cases hd : d = 0
      · subst hd
        simp only [Nat.cast_zero, div_zero, if_pos rfl]
        rw [div_pos_iff]
        constructor
        · rintro (⟨ha, _⟩ | ⟨_, hb2⟩)
          · have : 0 < a := by exact_mod_cast ha
            simpa using this
          · exact absurd hb2 (not_lt.mpr (Nat.cast_nonneg b))
        · intro h
          have : 0 < a := by simpa using h
          exact Or.inl ⟨by exact_mod_cast this, hb'⟩
      · rw [if_neg hd]
        have hd' : (0:ℚ) < (d:ℚ) := by
          have : 0 < d := Nat.pos_of_ne_zero hd
          exact_mod_cast this
        rw [div_lt_div_iff hd' hb']
        constructor
        · intro h
          have : c * b < a * d := by exact_mod_cast h
          simpa using this
        · intro h
          have h' : c * b < a * d := by simpa using h
          exact_mod_cast h'))


/-- A verse produced by `extract_xlsx_structure` of `30DatabaseBuilder.py`:
(reference, verse text, row number). -/
structure VerseRow where
  ref : Str
  text : Str
  row : Nat
deriving DecidableEq

/-- An entry of `normalized_verses` inside `match_phrases_to_verses`
(lines 121-125): the reference, original text, apostrophe-normalized
lowercased text, and the row number. -/
structure VerseN where
  ref : Str
  text : Str
  norm : Str
  row : Nat
deriving DecidableEq

/-- Lines 121-125 of `30DatabaseBuilder.py`: precompute
`normalize_apostrophes(text.lower())` for each verse. -/
def normalizeVerses (verses : List VerseRow) : List VerseN :=
  verses.map (fun v => ⟨v.ref, v.text, normalize_apostrophes (lowerStr v.text), v.row⟩)

/-- A matched entry of `match_phrases_to_verses`' results list. -/
structure Result04 where
  reference : Str
  phrase : Str
  verse_text : Str
deriving DecidableEq

/-- A prefix test: the first list starts the second. -/
def leadsWith : Str → Str → Bool
  | [], _ => true
  | _ :: _, [] => false
  | a :: n, b :: h => a == b && leadsWith n h

/-- Python's substring operator `needle in hay`. -/
def isSubstr (n : Str) : Str → Bool
  | [] => n.isEmpty
  | c :: rest => leadsWith n (c :: rest) || isSubstr n rest

/-- The qualifying test of the fuzzy stage of `match_phrases_to_verses`
(line 155): `len(common_words) / max(len(phrase_words), 1) > 0.6`, with
`0.6 = 3/5` exactly. -/
abbrev fuzzyCond04 (normP : Str) (v : VerseN) : Prop :=
  ((3:ℕ):ℚ)/((5:ℕ):ℚ) <
    ((interCard (wordSet normP) (wordSet v.norm) : ℕ):ℚ) /
      ((max (wordSet normP).length 1 : ℕ):ℚ)

/-- The candidate score of line 156: `len(common_words) / len(phrase_words)`. -/
def score04 (normP : Str) (v : VerseN) : ℚ :=
  ((interCard (wordSet normP) (wordSet v.norm) : ℕ):ℚ) /
    (((wordSet normP).length : ℕ):ℚ)

/-- The fuzzy-matching loop of `match_phrases_to_verses` (lines 146-159):
track `best_match` and `best_score`, replacing them on strictly greater
scores of qualifying candidates. -/
def fuzzyLoop04 (normP : Str) : Option (Str × Str) → ℚ → List VerseN →
    Option (Str × Str) × ℚ
  | best, bestScore, [] => (best, bestScore)
  | best, bestScore, v :: rest =>
    if fuzzyCond04 normP v then
      if bestScore < score04 normP v then
        fuzzyLoop04 normP (some (v.ref, v.text)) (score04 normP v) rest
      else fuzzyLoop04 normP best bestScore rest
    else fuzzyLoop04 normP best bestScore rest

/-- Lines 128-129 of `30DatabaseBuilder.py`: the phrase as compared,
`normalize_apostrophes(clean_text_content(phrase).lower())`. -/
def normPhrase04 (phrase : Str) : Str :=
  normalize_apostrophes (lowerStr (clean_text_content phrase))

/-- Processing of one phrase by `match_phrases_to_verses` (lines 127-171):
the containment stage (`normalized_phrase in normalized_text`, first hit
wins), then the fuzzy stage; `none` means the phrase joins `not_found`. -/
def matchOne04 (nvs : List VerseN) (phrase : Str) : Option Result04 :=
  match nvs.find? (fun v => isSubstr (normPhrase04 phrase) v.norm) with
  | some v => some ⟨v.ref, phrase, v.text⟩
  | none =>
    match fuzzyLoop04 (normPhrase04 phrase) none 0 nvs with
    | (some (r, t), bestScore) =>
      if ((3:ℕ):ℚ)/((5:ℕ):ℚ) < bestScore then some ⟨r, phrase, t⟩ else none
    | (none, _) => none

/-- The per-phrase loop of `match_phrases_to_verses`, accumulating the
results and not_found lists in order. -/
def matchGo04 (nvs : List VerseN) : List Str → List Result04 × List Str
  | [] => ([], [])
  | p :: ps =>
    match matchOne04 nvs p with
    | some r => (r :: (matchGo04 nvs ps).1, (matchGo04 nvs ps).2)
    | none => ((matchGo04 nvs ps).1, p :: (matchGo04 nvs ps).2)

/-- Function `match_phrases_to_verses` of `30DatabaseBuilder.py`. -/
def match_phrases_to_verses (phrases : List Str) (verses : List VerseRow) :
    List Result04 × List Str :=
  matchGo04 (normalizeVerses verses) phrases

/-- Executable twin of `fuzzyLoop04` carrying the best common-word count
instead of the rational best score (all scores share the denominator
`|phrase word set|`). -/
def fuzzyLoopN (normP : Str) : Option (Str × Str) → Nat → List VerseN →
    Option (Str × Str) × Nat
  | best, bestC, [] => (best, bestC)
  | best, bestC, v :: rest =>
    if divLtB 3 5 (interCard (wordSet normP) (wordSet v.norm))
        (max (wordSet normP).length 1) then
      if bestC < interCard (wordSet normP) (wordSet v.norm) then
        fuzzyLoopN normP (some (v.ref, v.text))
          (interCard (wordSet normP) (wordSet v.norm)) rest
      else fuzzyLoopN normP best bestC rest
    else fuzzyLoopN normP best bestC rest

/-- Executable twin of `matchOne04`. -/
def matchOne04E (nvs : List VerseN) (phrase : Str) : Option Result04 :=
  match nvs.find? (fun v => isSubstr (normPhrase04 phrase) v.norm) with
  | some v => some ⟨v.ref, phrase, v.text⟩
  | none =>
    match fuzzyLoopN (normPhrase04 phrase) none 0 nvs with
    | (some (r, t), bestC) =>
      if divLtB 3 5 bestC (wordSet (normPhrase04 phrase)).length then
        some ⟨r, phrase, t⟩
      else none
    | (none, _) => none

/-- A subhead extracted by `30_subheadfinder.py`: (cleaned text, row number,
original text). -/
structure SubheadE where
  cleaned : Str
  row : Nat
  orig : Str
deriving DecidableEq

/-- A matched entry of `match_subheads_to_verses`' results list. -/
structure Result03 where
  reference : Str
  subhead : Str
  original_xlsx_subhead : Str
deriving DecidableEq

/-- Map `subhead_clean_map` (lines 134-135 of `30_subheadfinder.py`): a Python
dict keyed by cleaned text; later assignments overwrite earlier ones, so
lookup returns the last subhead with the given cleaned text. -/
def cleanLookup (subs : List SubheadE) (key : Str) : Option SubheadE :=
  subs.reverse.find? (fun s => s.cleaned == key)

/-- Map `subhead_original_map` (line 136): keyed by original text, last wins. -/
def origLookup (subs : List SubheadE) (key : Str) : Option SubheadE :=
  subs.reverse.find? (fun s => s.orig == key)

/-- One insertion into `subhead_normalized_map` (lines 139-142).  The dict
maps `normalize_apostrophes(cleaned)` to the list of subheads sharing that
key, and only `matches[0]` — the earliest such subhead — is ever read, so
each key is stored once with its first subhead's (row, original text). -/
def addNormEntry (acc : List (Str × Nat × Str)) (s : SubheadE) :
    List (Str × Nat × Str) :=
  if (acc.find? (fun e => e.1 == normalize_apostrophes s.cleaned)).isSome then
    acc
  else acc ++ [(normalize_apostrophes s.cleaned, s.row, s.orig)]

/-- Map `subhead_normalized_map` in its `.items()` iteration order (dict
insertion order: order of first occurrence of each normalized key). -/
def normEntries (subs : List SubheadE) : List (Str × Nat × Str) :=
  subs.foldl addNormEntry []

/-- Function `find_verse_after_subhead` (lines 117-122): the first verse, in list
order, whose row number exceeds the subhead's. -/
def find_verse_after_subhead (subheadRow : Nat) (verses : List VerseRow) :
    Option VerseRow :=
  verses.find? (fun v => decide (subheadRow < v.row))

/-- The phrase as compared by `match_subheads_to_verses`:
`normalize_apostrophes(clean_text_content(phrase))` (lines 145-146). -/
def normPhrase03 (phrase : Str) : Str :=
  normalize_apostrophes (clean_text_content phrase)

/-- The similarity test of strategy 3 (line 185): the word-set intersection
divided by the larger token count (list lengths, duplicates counted) must
exceed `0.7 = 7/10`.  (Python would raise ZeroDivisionError when both token
lists are empty; here `x/0 = 0` fails the test instead — that case needs two
empty texts and is unreachable from the script's extractor.) -/
abbrev simCond03 (normP k : Str) : Prop :=
  ((7:ℕ):ℚ)/((10:ℕ):ℚ) <
    ((interCard (wordSet normP) (splitWs k) : ℕ):ℚ) /
      ((max (splitWs normP).length (splitWs k).length : ℕ):ℚ)

/-- Strategy 3 (lines 178-196): iterate the normalized map in insertion
order; on the first entry passing the containment gate and the similarity
threshold that also has a following verse, return; entries passing the tests
but lacking a following verse are skipped and the loop continues. -/
def fuzzy03 (normP phrase : Str) (verses : List VerseRow) :
    List (Str × Nat × Str) → Option Result03
  | [] => none
  | (k, row, orig) :: rest =>
    if isSubstr normP k || isSubstr k normP then
      if simCond03 normP k then
        match find_verse_after_subhead row verses with
        | some v => some ⟨v.ref, phrase, orig⟩
        | none => fuzzy03 normP phrase verses rest
      else fuzzy03 normP phrase verses rest
    else fuzzy03 normP phrase verses rest

/-- Strategy 1 (lines 149-160): exact match on cleaned text. -/
def strat1 (subs : List SubheadE) (verses : List VerseRow) (phrase : Str) :
    Option Result03 :=
  match cleanLookup subs (clean_text_content phrase) with
  | some sh =>
    match find_verse_after_subhead sh.row verses with
    | some v => some ⟨v.ref, phrase, sh.orig⟩
    | none => none
  | none => none

/-- Strategy 2 (lines 162-175): exact match on apostrophe-normalized text,
resolved to the first subhead with that normalized text. -/
def strat2 (subs : List SubheadE) (verses : List VerseRow) (phrase : Str) :
    Option Result03 :=
  match (normEntries subs).find? (fun e => e.1 == normPhrase03 phrase) with
  | some e =>
    match find_verse_after_subhead e.2.1 verses with
    | some v => some ⟨v.ref, phrase, e.2.2⟩
    | none => none
  | none => none

/-- Strategy 4 (lines 198-207): exact match on the original (uncleaned)
text. -/
def strat4 (subs : List SubheadE) (verses : List VerseRow) (phrase : Str) :
    Option Result03 :=
  match origLookup subs phrase with
  | some sh =>
    match find_verse_after_subhead sh.row verses with
    | some v => some ⟨v.ref, phrase, phrase⟩
    | none => none
  | none => none

/-- Per-phrase matching of `match_subheads_to_verses` (lines 144-211): the
four strategies in order, `none` meaning the phrase joins `not_found`. -/
def matchOne03 (subs : List SubheadE) (verses : List VerseRow)
    (phrase : Str) : Option Result03 :=
  match strat1 subs verses phrase with
  | some r => some r
  | none =>
    match strat2 subs verses phrase with
    | some r => some r
    | none =>
      match fuzzy03 (normPhrase03 phrase) phrase verses (normEntries subs) with
      | some r => some r
      | none => strat4 subs verses phrase

/-- The per-phrase loop of `match_subheads_to_verses`, accumulating results
and not_found in order. -/
def matchGo03 (subs : List SubheadE) (verses : List VerseRow) :
    List Str → List Result03 × List Str
  | [] => ([], [])
  | p :: ps =>
    match matchOne03 subs verses p with
    | some r => (r :: (matchGo03 subs verses ps).1, (matchGo03 subs verses ps).2)
    | none => ((matchGo03 subs verses ps).1, p :: (matchGo03 subs verses ps).2)

/-- Function `match_subheads_to_verses` of `30_subheadfinder.py`. -/
def match_subheads_to_verses (subhead_phrases : List Str)
    (subs : List SubheadE) (verses : List VerseRow) :
    List Result03 × List Str :=
  matchGo03 subs verses subhead_phrases

/-- Acceptance of one normalized-map entry by the strategy-3 loop. -/
def accept03 (normP : Str) (verses : List VerseRow)
    (e : Str × Nat × Str) : Prop :=
  (isSubstr normP e.1 || isSubstr e.1 normP) = true ∧ simCond03 normP e.1 ∧
    (find_verse_after_subhead e.2.1 verses).isSome = true

/-- Row-type tag tested by the chapter branch of `extract_xlsx_structure`. -/
def chapterTag : Str := "CHAPTER NUMBERS".toList

/-- Row-type tag tested by the verse-number branch. -/
def verseTag : Str := "VERSE NUMBERS".toList

/-- Row-type tag tested by the scripture-text branch. -/
def textTag : Str := "SCRIPTURE TEXT".toList

/-- Model of `''.join(c for c in content if c.isdigit())`. -/
def digitsOf (c : Str) : Str := c.filter Char.isDigit

/-- Cleaning of a scripture-text cell (line 103 of `30DatabaseBuilder.py`):
`content.replace('"','').replace('""','').strip()`; the second replace is a
no-op once every double quote is removed by the first. -/
def cleanContent (c : Str) : Str :=
  stripEnds (c.filter (fun ch => ch != '"'))

/-- Model of `" ".join(verse_text_parts)`. -/
def joinSpace : List Str → Str
  | [] => []
  | [p] => p
  | p :: q :: rest => p ++ ' ' :: joinSpace (q :: rest)

/-- The reference string `f"{book} {chapter}:{verse}"`. -/
def mkRef (book chap verse : Str) : Str :=
  book ++ ' ' :: chap ++ ':' :: verse

/-- Guard of the chapter branch: `"CHAPTER NUMBERS" in row_type and
content.strip()`. -/
def chapCond (t c : Str) : Prop :=
  isSubstr chapterTag t = true ∧ stripEnds c ≠ []

/-- Guard of the verse-number branch: `"VERSE NUMBERS" in row_type and
content.strip()`. -/
def verseCond (t c : Str) : Prop :=
  isSubstr verseTag t = true ∧ stripEnds c ≠ []

/-- Guard of the scripture-text branch: `"SCRIPTURE TEXT" in row_type and
content and content not in ['""', '']`. -/
def textCond (t c : Str) : Prop :=
  isSubstr textTag t = true ∧ c ≠ [] ∧ c ≠ ['"', '"']

instance (t c : Str) : Decidable (chapCond t c) := by
  unfold chapCond; infer_instance

instance (t c : Str) : Decidable (verseCond t c) := by
  unfold verseCond; infer_instance

instance (t c : Str) : Decidable (textCond t c) := by
  unfold textCond; infer_instance

/-- Emission of the pending verse at a verse-number row or at end of input
(lines 88-93 and 107-112): requires a current verse number, a nonempty part
list, and a nonempty joined text. -/
def flushVerse (book chap : Str) (verse : Option Str) (parts : List Str)
    (rn : Nat) (acc : List VerseRow) : List VerseRow :=
  match verse with
  | some v =>
    if parts ≠ [] then
      if stripEnds (joinSpace parts) ≠ [] then
        acc ++ [⟨mkRef book chap v, stripEnds (joinSpace parts), rn⟩]
      else acc
    else acc
  | none => acc

/-- The row loop of `extract_xlsx_structure` (`30DatabaseBuilder.py`, lines
70-105).  Rows are (row type, content) pairs — the strings of columns B and
C; rows whose column B is empty never reach the loop body and are omitted.
The elif chain tests the three tags in order.  (`30_subheadfinder.py`
prepends a SUBHEAD branch that never touches the verse state; its verse
logic is line-for-line identical.) -/
def extractGo (book : Str) : Str → Option Str → List Str → List VerseRow →
    List (Str × Nat) → Nat → List (Str × Str) →
    List VerseRow × List (Str × Nat)
  | chap, verse, parts, accV, accC, rn, [] =>
    (flushVerse book chap verse parts rn accV, accC)
  | chap, verse, parts, accV, accC, rn, (t, c) :: rest =>
    if chapCond t c then
      if digitsOf c ≠ [] then
        extractGo book (digitsOf c) verse parts accV
          (accC ++ [(digitsOf c, rn + 1)]) (rn + 1) rest
      else extractGo book chap verse parts accV accC (rn + 1) rest
    else if verseCond t c then
      extractGo book chap
        (if digitsOf c ≠ [] then some (digitsOf c) else verse) []
        (flushVerse book chap verse parts (rn + 1) accV) accC (rn + 1) rest
    else if textCond t c then
      if cleanContent c ≠ [] then
        extractGo book chap verse (parts ++ [cleanContent c]) accV accC
          (rn + 1) rest
      else extractGo book chap verse parts accV accC (rn + 1) rest
    else extractGo book chap verse parts accV accC (rn + 1) rest

/-- Function `extract_xlsx_structure` of `30DatabaseBuilder.py`: current chapter
starts as "1", no current verse, empty accumulators, and the book name
taken from the file name. -/
def extract_xlsx_structure (book : Str) (rows : List (Str × Str)) :
    List VerseRow × List (Str × Nat) :=
  extractGo book ['1'] none [] [] [] 0 rows

/-- Classification of a row as the chapter branch. -/
def isChapterRow (r : Str × Str) : Bool := decide (chapCond r.1 r.2)

/-- Classification of a row as the verse-number branch. -/
def isVerseRow (r : Str × Str) : Bool :=
  !isChapterRow r && decide (verseCond r.1 r.2)

/-- Classification of a row as a scripture-text row with nonempty cleaned
content. -/
def isTextRow (r : Str × Str) : Bool :=
  !isChapterRow r && !decide (verseCond r.1 r.2) &&
    decide (textCond r.1 r.2) && !(cleanContent r.2).isEmpty

/-- Whether a nonempty scripture-text row occurs before the next verse-number
row or the end of input. -/
def segHasText : List (Str × Str) → Bool
  | [] => false
  | r :: rs =>
    if isVerseRow r then false
    else if isTextRow r then true
    else segHasText rs

/-- The count asserted by the claim: verse-number rows followed by at least
one nonempty scripture-text row before the next verse-number row or EOF. -/
def claimCount : List (Str × Str) → Nat
  | [] => 0
  | r :: rs =>
    (if isVerseRow r && segHasText rs then 1 else 0) + claimCount rs

/-- The corrected count: a verse-number row is only counted when some
digit-bearing verse-number row occurs at or before it (the flag records
whether one has been seen), since only those set the current verse number
that the emission check requires. -/
def amendedCount : Bool → List (Str × Str) → Nat
  | _, [] => 0
  | seen, r :: rs =>
    if isVerseRow r then
      (if (seen || !(digitsOf r.2).isEmpty) && segHasText rs then 1 else 0) +
        amendedCount (seen || !(digitsOf r.2).isEmpty) rs
    else amendedCount seen rs

/-- Invariant of the accumulated verse text parts: each is nonempty with no
leading or trailing whitespace (they come from `cleanContent`). -/
def partsOK (parts : List Str) : Prop :=
  ∀ p ∈ parts, p ≠ [] ∧ headNotWs p = true ∧ noTrailWs p = true

/-- The four per-color counters of `PDFWriter_01.py` in their fixed
iteration order RED, YELLOW, PURPLE, ORANGE: `color_counts` (detected
during the spreadsheet scan) and `added_color_counts` (written). -/
structure ColorCounts where
  red : Nat
  yellow : Nat
  purple : Nat
  orange : Nat
deriving DecidableEq

/-- Decimal rendering of a natural number, as Python `str()`. -/
def natRepr (n : Nat) : Str := Nat.toDigits 10 n

/-- Python `str(expected - actual)` on ints (negative renders with `-`). -/
def diffRepr (e a : Nat) : Str :=
  if a ≤ e then natRepr (e - a) else '-' :: natRepr (a - e)

/-- The count phrase of a mismatched color line (line 259):
`f"{expected} expected, {actual} written. {expected - actual} missing"`. -/
def diffPhrase (e a : Nat) : Str :=
  natRepr e ++ " expected, ".toList ++ natRepr a ++ " written. ".toList ++
    diffRepr e a ++ " missing".toList

/-- One per-color line of the summary (lines 254-259). -/
def colorLine (name : Str) (e a : Nat) : Str :=
  if e = a then
    name ++ ": All ".toList ++ natRepr e ++
      " annotations written successfully\n".toList
  else name ++ ": ".toList ++ diffPhrase e a ++ "\n".toList

/-- All four expected counts equal the written counts (`all_good`). -/
def allGood (cc ac : ColorCounts) : Prop :=
  cc.red = ac.red ∧ cc.yellow = ac.yellow ∧ cc.purple = ac.purple ∧
    cc.orange = ac.orange

instance (cc ac : ColorCounts) : Decidable (allGood cc ac) := by
  unfold allGood
  infer_instance

/-- The summary text composed by `add_summary_annotation` (lines 243-264):
per-color lines accumulate after a banner; if every color matches, the whole
text is replaced by the confirmation sentence, otherwise the accumulated
text is prefixed with "MISSING ANNOTATIONS:".  (`missing_annotations` is
true exactly when `all_good` is false, so the elif collapses to this
two-way branch.) -/
def summaryText (cc ac : ColorCounts) : Str :=
  if allGood cc ac then
    "All comments were successfully written into the PDF.".toList
  else
    "MISSING ANNOTATIONS:\n\n".toList ++
      ("ANNOTATION SUMMARY:\n\n".toList ++
        (colorLine "RED".toList cc.red ac.red ++
          (colorLine "YELLOW".toList cc.yellow ac.yellow ++
            (colorLine "PURPLE".toList cc.purple ac.purple ++
              colorLine "ORANGE".toList cc.orange ac.orange))))

/-- Character replacements of `clean_text` in `30DatabaseBuilder_revised.py`:
curly double quotes to `"`, curly single quotes to `'`, en/em dash to `-`. -/
def qChar (c : Char) : Char :=
  if c = '“' ∨ c = '”' then '"'
  else if c = '‘' ∨ c = '’' then '\u0027'
  else if c = '–' ∨ c = '—' then '-'
  else c

/-- Function `clean_text` of `30DatabaseBuilder_revised.py`: drop zero-width space and
soft hyphen, apply the quote/dash replacements, strip. -/
def clean_text06 (s : Str) : Str :=
  stripEnds ((s.filter (fun c => !(c == '​' || c == '­'))).map qChar)

/-- Python `str.upper()`, modelled over ASCII. -/
def upperStr (s : Str) : Str := s.map Char.toUpper

/-- The verse-reconstruction loop of `30DatabaseBuilder_revised.py` (lines
26-52).  Rows are (Text Category, Span Content) pairs; the category is
upper-cased and the content cleaned; a verse is (current chapter — `None`
until a chapter row is seen — verse content, stripped body). -/
def extract06Go : Option Str → Option Str → Str →
    List (Option Str × Str × Str) → List (Str × Str) →
    List (Option Str × Str × Str)
  | chap, verse, body, acc, [] =>
    (match verse with
     | some v => if body ≠ [] then acc ++ [(chap, v, stripEnds body)] else acc
     | none => acc)
  | chap, verse, body, acc, (t, c) :: rest =>
    if isSubstr "CHAPTER NUMBERS".toList (upperStr t) then
      extract06Go (some (clean_text06 c)) verse body acc rest
    else if upperStr t = "OTHER ELEMENTS".toList ∨
        upperStr t = "BOOK TITLES".toList ∨
        upperStr t = "SUBHEAD HEADINGS IN BIBLE TEXT".toList then
      extract06Go chap verse body acc rest
    else if isSubstr "VERSE NUMBERS".toList (upperStr t) then
      extract06Go chap (some (clean_text06 c)) []
        (match verse with
         | some v => if body ≠ [] then acc ++ [(chap, v, stripEnds body)]
           else acc
         | none => acc) rest
    else if isSubstr "SCRIPTURE TEXT FONTS".toList (upperStr t) then
      extract06Go chap verse (body ++ ' ' :: clean_text06 c) acc rest
    else extract06Go chap verse body acc rest

/-- The verse list reconstructed by `30DatabaseBuilder_revised.py`. -/
def extract06 (rows : List (Str × Str)) : List (Option Str × Str × Str) :=
  extract06Go none none [] [] rows

/-- The regex `^(\d+)\s*(.*)` applied to a line (lines 74-80), with the
fragment stripped. -/
def parseLine (line : Str) : Option Str × Str :=
  if line.takeWhile Char.isDigit ≠ [] then
    (some (line.takeWhile Char.isDigit),
      stripEnds ((line.dropWhile Char.isDigit).dropWhile isPySpace))
  else (none, stripEnds line)

/-- Python's rendering of the chapter in `f"Genesis {chap}:{verse}"`:
`str(None)` is the text `None`. -/
def chapRender : Option Str → Str
  | none => "None".toList
  | some s => s

/-- The reference string `f"Genesis {chap}:{verse}"`. -/
def refStr06 (chap : Option Str) (verse : Str) : Str :=
  "Genesis ".toList ++ chapRender chap ++ ':' :: verse

/-- The sentinel reference of unmatched lines. -/
def notMatched : Str := "Not matched".toList

/-- The inner verse scan for one line (lines 83-92): skip verses whose
(chapter, verse) pair is already used; require the verse string to equal the
line's leading number; accept when the similarity score of the lowercased
fragment and body is at least 80.  The score function is rapidfuzz's
`fuzz.partial_ratio`, an external library, passed here as a parameter. -/
def findVerse06 (ratio : Str → Str → ℚ) (used : List (Option Str × Str))
    (vnum : Str) (frag : Str) :
    List (Option Str × Str × Str) → Option (Option Str × Str)
  | [] => none
  | (chap, verse, body) :: rest =>
    if (chap, verse) ∈ used then findVerse06 ratio used vnum frag rest
    else if verse = vnum then
      if (80:ℚ) ≤ ratio (lowerStr frag) (lowerStr body) then
        some (chap, verse)
      else findVerse06 ratio used vnum frag rest
    else findVerse06 ratio used vnum frag rest

/-- The verse found for one line, if any: lines without a leading number
never match (`txt_verse_num is None` fails the loop's condition), others are
scanned by `findVerse06`. -/
def findLineMatch (ratio : Str → Str → ℚ)
    (verses : List (Option Str × Str × Str)) (used : List (Option Str × Str))
    (line : Str) : Option (Option Str × Str) :=
  match (parseLine line).1 with
  | some vnum => findVerse06 ratio used vnum (parseLine line).2 verses
  | none => none

/-- The per-line loop of `30DatabaseBuilder_revised.py` (lines 70-95),
carrying the `used_verses` set and producing `output_rows`. -/
def match06Go (ratio : Str → Str → ℚ)
    (verses : List (Option Str × Str × Str)) :
    List (Option Str × Str) → List Str → List (Str × Str)
  | _, [] => []
  | used, line :: rest =>
    match findLineMatch ratio verses used line with
    | some p =>
      (refStr06 p.1 p.2, line) :: match06Go ratio verses (used ++ [p]) rest
    | none => (notMatched, line) :: match06Go ratio verses used rest

/-- The matching stage of `30DatabaseBuilder_revised.py`: empty used set. -/
def match06 (ratio : Str → Str → ℚ)
    (verses : List (Option Str × Str × Str)) (lines : List Str) :
    List (Str × Str) :=
  match06Go ratio verses [] lines

/-- Modelled from the spec: `rapidfuzz.fuzz.partial_ratio` is an external
library (the spec treats such libraries as external collaborators) whose
source is not part of this repository.  This stand-in agrees with
`fuzz.partial_ratio` on every call the concrete runs below make: the partial
ratio of two identical strings is 100; the stand-in scores everything else
0. -/
def standInScore (a b : Str) : ℚ := if a = b then 100 else 0


theorem divLt_iff (c d a b : Nat) :
    ((c:ℚ)/(d:ℚ) < (a:ℚ)/(b:ℚ)) ↔ divLtB c d a b = true := by
  unfold divLtB
  by_cases hb : b = 0
  · subst hb
    simp only [Nat.cast_zero, div_zero, if_pos rfl]
    constructor
    · intro h
      exact absurd h (not_lt.mpr (div_nonneg (Nat.cast_nonneg c) (Nat.cast_nonneg d)))
    · intro h; exact absurd h (by simp)
  · rw [if_neg hb]
    have hb' : (0:ℚ) < (b:ℚ) := by
      have : 0 < b := Nat.pos_of_ne_zero hb
      exact_mod_cast this
    by_cases hd : d = 0
    · subst hd
      simp only [Nat.cast_zero, div_zero, if_pos rfl]
      rw [div_pos_iff]
      constructor
      · rintro (⟨ha, _⟩ | ⟨_, hb2⟩)
        · have : 0 < a := by exact_mod_cast ha
          simpa using this
        · exact absurd hb2 (not_lt.mpr (Nat.cast_nonneg b))
      · intro h
        have : 0 < a := by simpa using h
        exact Or.inl ⟨by exact_mod_cast this, hb'⟩
    · rw [if_neg hd]
      have hd' : (0:ℚ) < (d:ℚ) := by
        have : 0 < d := Nat.pos_of_ne_zero hd
        exact_mod_cast this
      rw [div_lt_div_iff hd' hb']
      constructor
      · intro h
        have : c * b < a * d := by exact_mod_cast h
        simpa using this
      · intro h
        have h' : c * b < a * d := by simpa using h
        exact_mod_cast h'


theorem headNotWs_append (l m : Str) (h : l ≠ []) :
    headNotWs (l ++ m) = headNotWs l := by
  cases l with
  | nil => exact absurd rfl h
  | cons c t => rfl

theorem noTrailWs_eq_headNotWs_reverse (s : Str) :
    noTrailWs s = headNotWs s.reverse := by
  induction s with
  | nil => rfl
  | cons a t ih =>
    cases t with
    | nil => rfl
    | cons b r =>
      have hne : (b :: r).reverse ≠ [] := by simp
      calc noTrailWs (a :: b :: r) = noTrailWs (b :: r) := rfl
        _ = headNotWs (b :: r).reverse := ih
        _ = headNotWs ((b :: r).reverse ++ [a]) :=
            (headNotWs_append _ _ hne).symm
        _ = headNotWs (a :: b :: r).reverse := by
            rw [show (a :: b :: r).reverse = (b :: r).reverse ++ [a] from
              List.reverse_cons ..]

theorem headNotWs_dropWhile (s : Str) :
    headNotWs (s.dropWhile isPySpace) = true := by
  induction s with
  | nil => rfl
  | cons c t ih =>
    by_cases h : isPySpace c = true
    · rw [List.dropWhile_cons_of_pos h]; exact ih
    · rw [List.dropWhile_cons_of_neg h]
      simp [headNotWs, h]

theorem dropWhile_eq_self_of_headNotWs (s : Str) (h : headNotWs s = true) :
    s.dropWhile isPySpace = s := by
  cases s with
  | nil => rfl
  | cons c t =>
    have : isPySpace c = false := by
      simpa [headNotWs] using h
    rw [List.dropWhile_cons_of_neg (by simp [this])]

theorem stripEnds_eq_self (s : Str) (h1 : headNotWs s = true)
    (h2 : noTrailWs s = true) : stripEnds s = s := by
  unfold stripEnds
  rw [dropWhile_eq_self_of_headNotWs s h1]
  rw [dropWhile_eq_self_of_headNotWs s.reverse
    (by rw [← noTrailWs_eq_headNotWs_reverse]; exact h2)]
  exact List.reverse_reverse s

theorem stripEnds_decomp (s : Str) :
    ∃ x y, s = x ++ (stripEnds s ++ y) := by
  refine ⟨s.takeWhile isPySpace,
    ((s.dropWhile isPySpace).reverse.takeWhile isPySpace).reverse, ?_⟩
  have h1 : s = s.takeWhile isPySpace ++ s.dropWhile isPySpace :=
    (List.takeWhile_append_dropWhile ..).symm
  have h2 : (s.dropWhile isPySpace).reverse =
      (s.dropWhile isPySpace).reverse.takeWhile isPySpace ++
      (s.dropWhile isPySpace).reverse.dropWhile isPySpace :=
    (List.takeWhile_append_dropWhile ..).symm
  have h3 : s.dropWhile isPySpace =
      stripEnds s ++ ((s.dropWhile isPySpace).reverse.takeWhile isPySpace).reverse := by
    have h4 := congrArg List.reverse h2
    rw [List.reverse_reverse, List.reverse_append] at h4
    exact h4
  calc s = s.takeWhile isPySpace ++ s.dropWhile isPySpace := h1
    _ = s.takeWhile isPySpace ++ (stripEnds s ++
        ((s.dropWhile isPySpace).reverse.takeWhile isPySpace).reverse) := by
        rw [← h3]

theorem headNotWs_stripEnds (s : Str) : headNotWs (stripEnds s) = true := by
  rcases stripEnds_decomp s with ⟨x, y, hs⟩
  by_cases hne : stripEnds s = []
  · rw [hne]; rfl
  · have h1 : headNotWs (s.dropWhile isPySpace) = true := headNotWs_dropWhile s
    have h2 : s.dropWhile isPySpace =
        stripEnds s ++ ((s.dropWhile isPySpace).reverse.takeWhile isPySpace).reverse := by
      have h2' : (s.dropWhile isPySpace).reverse =
          (s.dropWhile isPySpace).reverse.takeWhile isPySpace ++
          (s.dropWhile isPySpace).reverse.dropWhile isPySpace :=
        (List.takeWhile_append_dropWhile ..).symm
      have h4 := congrArg List.reverse h2'
      rw [List.reverse_reverse, List.reverse_append] at h4
      exact h4
    rw [h2, headNotWs_append _ _ hne] at h1
    exact h1

theorem noTrailWs_stripEnds (s : Str) : noTrailWs (stripEnds s) = true := by
  rw [noTrailWs_eq_headNotWs_reverse]
  unfold stripEnds
  rw [List.reverse_reverse]
  exact headNotWs_dropWhile _

theorem noTwoWs_tail (c : Char) (s : Str) (h : noTwoWs (c :: s) = true) :
    noTwoWs s = true := by
  cases s with
  | nil => rfl
  | cons b r =>
    have := h
    simp only [noTwoWs, Bool.and_eq_true] at this
    exact this.2

theorem noTwoWs_append_left (x s : Str) (h : noTwoWs (x ++ s) = true) :
    noTwoWs s = true := by
  induction x with
  | nil => exact h
  | cons c t ih => exact ih (noTwoWs_tail c _ h)

theorem noTwoWs_append_right (s y : Str) (h : noTwoWs (s ++ y) = true) :
    noTwoWs s = true := by
  induction s with
  | nil => rfl
  | cons a t ih =>
    cases t with
    | nil => rfl
    | cons b r =>
      simp only [List.cons_append, noTwoWs, Bool.and_eq_true] at h ⊢
      exact ⟨h.1, by
        have := ih (by simpa using h.2)
        exact this⟩

theorem mem_collapseAux (c : Char) :
    ∀ (s : Str) (b : Bool), c ∈ collapseAux b s →
      c = ' ' ∨ (c ∈ s ∧ isPySpace c = false) := by
  intro s
  induction s with
  | nil => intro b h; cases b <;> simp [collapseAux] at h
  | cons d t ih =>
    intro b h
    by_cases hd : isPySpace d = true
    · cases b with
      | true =>
        rw [show collapseAux true (d :: t) = collapseAux true t from by
          simp [collapseAux, hd]] at h
        rcases ih true h with h' | h'
        · exact Or.inl h'
        · exact Or.inr ⟨List.mem_cons_of_mem _ h'.1, h'.2⟩
      | false =>
        rw [show collapseAux false (d :: t) = ' ' :: collapseAux true t from by
          simp [collapseAux, hd]] at h
        rcases List.mem_cons.mp h with rfl | h'
        · exact Or.inl rfl
        · rcases ih true h' with h'' | h''
          · exact Or.inl h''
          · exact Or.inr ⟨List.mem_cons_of_mem _ h''.1, h''.2⟩
    · have hstep : collapseAux b (d :: t) = d :: collapseAux false t := by
        cases b <;> simp [collapseAux, hd]
      rw [hstep] at h
      rcases List.mem_cons.mp h with rfl | h'
      · exact Or.inr ⟨List.mem_cons_self .., by simpa using hd⟩
      · rcases ih false h' with h'' | h''
        · exact Or.inl h''
        · exact Or.inr ⟨List.mem_cons_of_mem _ h''.1, h''.2⟩

theorem collapseAux_noTwoWs_head :
    ∀ (s : Str) (b : Bool), noTwoWs (collapseAux b s) = true ∧
      (b = true → headNotWs (collapseAux b s) = true) := by
  intro s
  induction s with
  | nil => intro b; cases b <;> exact ⟨rfl, fun _ => rfl⟩
  | cons d t ih =>
    intro b
    by_cases hd : isPySpace d = true
    · cases b with
      | true =>
        rw [show collapseAux true (d :: t) = collapseAux true t from by
          simp [collapseAux, hd]]
        exact ih true
      | false =>
        rw [show collapseAux false (d :: t) = ' ' :: collapseAux true t from by
          simp [collapseAux, hd]]
        constructor
        · have hh := (ih true).2 rfl
          have hn := (ih true).1
          cases hX : collapseAux true t with
          | nil => rfl
          | cons e r =>
            rw [hX] at hh hn
            have he : isPySpace e = false := by simpa [headNotWs] using hh
            simp [noTwoWs, he, hn]
        · intro h; exact absurd h (by simp)
    · have hstep : collapseAux b (d :: t) = d :: collapseAux false t := by
        cases b <;> simp [collapseAux, hd]
      rw [hstep]
      constructor
      · have hn := (ih false).1
        cases hX : collapseAux false t with
        | nil => rfl
        | cons e r =>
          rw [hX] at hn
          simp [noTwoWs, hn, by simpa using hd]
      · intro _
        simp [headNotWs, by simpa using hd]

theorem collapseAux_eq_self :
    ∀ (s : Str) (b : Bool), wsAllSpace s = true → noTwoWs s = true →
      (b = true → headNotWs s = true) → collapseAux b s = s := by
  intro s
  induction s with
  | nil => intro b _ _ _; cases b <;> rfl
  | cons d t ih =>
    intro b hws hn2 hb
    have hwst : wsAllSpace t = true := by
      simp only [wsAllSpace, List.all_cons, Bool.and_eq_true] at hws
      exact hws.2
    by_cases hd : isPySpace d = true
    · have hbf : b = false := by
        cases b with
        | false => rfl
        | true =>
          have := hb rfl
          simp [headNotWs, hd] at this
      subst hbf
      have hdsp : d = ' ' := by
        simp only [wsAllSpace, List.all_cons, Bool.and_eq_true] at hws
        have h1 := hws.1
        simp [hd] at h1
        exact h1
      have hht : headNotWs t = true := by
        cases t with
        | nil => rfl
        | cons e r =>
          simp only [noTwoWs, Bool.and_eq_true] at hn2
          have he := hn2.1
          simp only [hd, Bool.true_and, Bool.not_eq_true'] at he
          simp [headNotWs, he]
      rw [show collapseAux false (d :: t) = ' ' :: collapseAux true t from by
        simp [collapseAux, hd]]
      rw [ih true hwst (noTwoWs_tail _ _ hn2) (fun _ => hht), hdsp]
    · have hstep : collapseAux b (d :: t) = d :: collapseAux false t := by
        cases b <;> simp [collapseAux, hd]
      rw [hstep]
      rw [ih false hwst (noTwoWs_tail _ _ hn2) (fun h => absurd h (by simp))]

theorem keepChar_space : keepChar ' ' = true := by decide

theorem ctc_cleanShaped (s : Str) : cleanShaped (clean_text_content s) := by
  unfold clean_text_content
  by_cases hs : s = []
  · rw [if_pos hs]
    exact ⟨by intro c hc; simp at hc, rfl, rfl, rfl, rfl⟩
  · rw [if_neg hs]
    set u := collapseAux false (s.filter keepChar) with hu
    have hmemu : ∀ c ∈ u, keepChar c = true := by
      intro c hc
      rcases mem_collapseAux c _ false hc with rfl | h
      · exact keepChar_space
      · exact List.of_mem_filter h.1
    have hwsu : ∀ c ∈ u, isPySpace c = true → c = ' ' := by
      intro c hc hcs
      rcases mem_collapseAux c _ false hc with rfl | h
      · rfl
      · rw [h.2] at hcs; exact absurd hcs (by simp)
    rcases stripEnds_decomp u with ⟨x, y, hdec⟩
    have hsub : ∀ c ∈ stripEnds u, c ∈ u := by
      intro c hc
      rw [hdec]
      simp [hc]
    refine ⟨fun c hc => hmemu c (hsub c hc), ?_, ?_, headNotWs_stripEnds u,
      noTrailWs_stripEnds u⟩
    · simp only [wsAllSpace, List.all_eq_true]
      intro c hc
      by_cases hcs : isPySpace c = true
      · simp [hwsu c (hsub c hc) hcs]
      · simp [hcs]
    · have hnu : noTwoWs u = true := (collapseAux_noTwoWs_head _ false).1
      rw [hdec] at hnu
      exact noTwoWs_append_right _ _ (noTwoWs_append_left _ _ hnu)

theorem ctc_of_cleanShaped (s : Str) (h : cleanShaped s) :
    clean_text_content s = s := by
  obtain ⟨hkeep, hws, hn2, hhd, htl⟩ := h
  unfold clean_text_content
  by_cases hs : s = []
  · rw [if_pos hs, hs]
  · rw [if_neg hs]
    rw [List.filter_eq_self.mpr hkeep]
    rw [collapseAux_eq_self s false hws hn2 (fun h => absurd h (by simp))]
    exact stripEnds_eq_self s hhd htl

theorem naChar_not_ws (c : Char) (h : apostropheVariants.contains c = true) :
    isPySpace c = false := by
  have hm : c ∈ apostropheVariants := by
    simpa using h
  fin_cases hm <;> decide

theorem naChar_ws (c : Char) : isPySpace (naChar c) = isPySpace c := by
  unfold naChar
  by_cases h : apostropheVariants.contains c = true
  · rw [if_pos h, naChar_not_ws c h]; decide
  · rw [if_neg h]

theorem naChar_keep (c : Char) (h : keepChar c = true) :
    keepChar (naChar c) = true := by
  unfold naChar
  by_cases hv : apostropheVariants.contains c = true
  · rw [if_pos hv]; decide
  · rw [if_neg hv]; exact h

theorem naChar_space : naChar ' ' = ' ' := by decide

theorem naChar_idem (c : Char) : naChar (naChar c) = naChar c := by
  unfold naChar
  by_cases hv : apostropheVariants.contains c = true
  · rw [if_pos hv]; decide
  · rw [if_neg hv, if_neg hv]

theorem na_idem (s : Str) :
    normalize_apostrophes (normalize_apostrophes s) = normalize_apostrophes s := by
  unfold normalize_apostrophes
  rw [List.map_map]
  exact List.map_congr_left (fun c _ => naChar_idem c)

theorem headNotWs_map_na (s : Str) :
    headNotWs (s.map naChar) = headNotWs s := by
  cases s with
  | nil => rfl
  | cons c t => simp [headNotWs, naChar_ws]

theorem noTwoWs_map_na (s : Str) : noTwoWs (s.map naChar) = noTwoWs s := by
  induction s with
  | nil => rfl
  | cons a t ih =>
    cases t with
    | nil => rfl
    | cons b r =>
      simp only [List.map_cons, noTwoWs, naChar_ws]
      rw [show (naChar b :: r.map naChar) = (b :: r).map naChar from rfl, ih]

theorem na_cleanShaped (s : Str) (h : cleanShaped s) :
    cleanShaped (normalize_apostrophes s) := by
  obtain ⟨hkeep, hws, hn2, hhd, htl⟩ := h
  unfold normalize_apostrophes
  refine ⟨?_, ?_, ?_, ?_, ?_⟩
  · intro c hc
    rcases List.mem_map.mp hc with ⟨d, hd, rfl⟩
    exact naChar_keep d (hkeep d hd)
  · simp only [wsAllSpace, List.all_eq_true] at hws ⊢
    intro c hc
    rcases List.mem_map.mp hc with ⟨d, hd, rfl⟩
    by_cases hds : isPySpace d = true
    · have hd' : d = ' ' := by
        have := hws d hd
        simp [hds] at this
        exact this
      subst hd'
      simp [naChar_space]
    · simp [naChar_ws, hds]
  · rw [noTwoWs_map_na]; exact hn2
  · rw [headNotWs_map_na]; exact hhd
  · rw [noTrailWs_eq_headNotWs_reverse] at htl ⊢
    rw [← List.map_reverse, headNotWs_map_na]
    exact htl

/-- C3: text normalization (whitelist stripping, whitespace collapsing,
trimming, apostrophe unification) is idempotent:
`normalize(normalize(x)) = normalize(x)` for every string `x`. -/
theorem c3_normalize_idempotent (s : Str) :
    normText (normText s) = normText s := by
  have h1 := ctc_cleanShaped s
  have h2 := na_cleanShaped _ h1
  unfold normText
  rw [ctc_of_cleanShaped _ h2, na_idem]

theorem interCard_le_left (a b : List Str) : interCard a b ≤ a.length :=
  List.length_filter_le _ a

theorem interCard_wordSet_le (normP : Str) (v : VerseN) :
    interCard (wordSet normP) (wordSet v.norm) ≤ (wordSet normP).length :=
  interCard_le_left _ _

theorem fuzzyCond04_pos (normP : Str) (v : VerseN)
    (h : fuzzyCond04 normP v) :
    0 < interCard (wordSet normP) (wordSet v.norm) ∧
      0 < (wordSet normP).length := by
  have hB := (divLt_iff 3 5 (interCard (wordSet normP) (wordSet v.norm))
    (max (wordSet normP).length 1)).mp h
  unfold divLtB at hB
  rw [if_neg (by omega : ¬ max (wordSet normP).length 1 = 0),
      if_neg (by omega : ¬ (5:ℕ) = 0)] at hB
  have h5 : 3 * max (wordSet normP).length 1 <
      interCard (wordSet normP) (wordSet v.norm) * 5 := by
    simpa using hB
  have hle := interCard_wordSet_le normP v
  have h1 : 1 ≤ max (wordSet normP).length 1 := le_max_right _ _
  omega

theorem score04_eq (normP : Str) (v : VerseN) :
    score04 normP v = ((interCard (wordSet normP) (wordSet v.norm) : ℕ):ℚ) /
      (((wordSet normP).length : ℕ):ℚ) := rfl

theorem fuzzyLoop04_eq_twin (normP : Str) (vs : List VerseN)
    (best : Option (Str × Str)) (bestC : Nat) :
    fuzzyLoop04 normP best ((bestC:ℚ)/(((wordSet normP).length : ℕ):ℚ)) vs =
      ((fuzzyLoopN normP best bestC vs).1,
       (((fuzzyLoopN normP best bestC vs).2 : ℕ):ℚ) /
         (((wordSet normP).length : ℕ):ℚ)) := by
  induction vs generalizing best bestC with
  | nil => rfl
  | cons v rest ih =>
    by_cases hc : fuzzyCond04 normP v
    · have hcB : divLtB 3 5 (interCard (wordSet normP) (wordSet v.norm))
          (max (wordSet normP).length 1) = true := (divLt_iff ..).mp hc
      have hpos := fuzzyCond04_pos normP v hc
      have hpw : (0:ℚ) < (((wordSet normP).length : ℕ):ℚ) := by
        exact_mod_cast hpos.2
      have hscore : (bestC < interCard (wordSet normP) (wordSet v.norm)) ↔
          ((bestC:ℚ)/(((wordSet normP).length : ℕ):ℚ) < score04 normP v) := by
        rw [score04_eq, div_lt_div_iff hpw hpw, mul_lt_mul_right hpw,
          Nat.cast_lt]
      show (if fuzzyCond04 normP v then _ else _) = _
      rw [if_pos hc]
      unfold fuzzyLoopN
      rw [if_pos hcB]
      by_cases himp : bestC < interCard (wordSet normP) (wordSet v.norm)
      · rw [if_pos (hscore.mp himp), if_pos himp]
        rw [score04_eq]
        exact ih _ _
      · rw [if_neg (fun hq => himp (hscore.mpr hq)), if_neg himp]
        exact ih _ _
    · have hcB : divLtB 3 5 (interCard (wordSet normP) (wordSet v.norm))
          (max (wordSet normP).length 1) = false := by
        by_contra hne
        exact hc ((divLt_iff ..).mpr (by
          cases h' : divLtB 3 5 (interCard (wordSet normP) (wordSet v.norm))
            (max (wordSet normP).length 1)
          · exact absurd h' hne
          · rfl))
      show (if fuzzyCond04 normP v then _ else _) = _
      rw [if_neg hc]
      unfold fuzzyLoopN
      rw [if_neg (by simp [hcB])]
      exact ih _ _

theorem matchOne04_eq_twin (nvs : List VerseN) (phrase : Str) :
    matchOne04 nvs phrase = matchOne04E nvs phrase := by
  unfold matchOne04 matchOne04E
  cases hf : nvs.find? (fun v => isSubstr (normPhrase04 phrase) v.norm) with
  | some v => rfl
  | none =>
    have h0 : (0:ℚ) =
        ((0:ℕ):ℚ)/(((wordSet (normPhrase04 phrase)).length : ℕ):ℚ) := by
      simp
    rw [h0, fuzzyLoop04_eq_twin]
    rcases hfl : fuzzyLoopN (normPhrase04 phrase) none 0 nvs with ⟨b, c⟩
    cases b with
    | none => rfl
    | some rt =>
      rcases rt with ⟨r, t⟩
      show (@ite _ (((3:ℕ):ℚ)/((5:ℕ):ℚ) <
            ((c:ℕ):ℚ)/(((wordSet (normPhrase04 phrase)).length : ℕ):ℚ))
            (Rat.instDecidableLt _ _)
            (some (Result04.mk r phrase t)) none) =
          (@ite _ (divLtB 3 5 c (wordSet (normPhrase04 phrase)).length = true)
            (instDecidableEqBool _ _)
            (some (Result04.mk r phrase t)) none)
      by_cases hd : divLtB 3 5 c (wordSet (normPhrase04 phrase)).length = true
      · rw [if_pos ((divLt_iff ..).mpr hd), if_pos hd]
      · rw [if_neg (fun hq => hd ((divLt_iff ..).mp hq)), if_neg hd]

theorem score04_pos_of_cond (normP : Str) (v : VerseN)
    (h : fuzzyCond04 normP v) : 0 < score04 normP v := by
  have hpos := fuzzyCond04_pos normP v h
  unfold score04
  apply div_pos
  · exact_mod_cast hpos.1
  · exact_mod_cast hpos.2

theorem score04_gt_of_cond (normP : Str) (v : VerseN)
    (h : fuzzyCond04 normP v) :
    ((3:ℕ):ℚ)/((5:ℕ):ℚ) < score04 normP v := by
  have hpos := fuzzyCond04_pos normP v h
  have hmax : max (wordSet normP).length 1 = (wordSet normP).length := by
    omega
  simp only [fuzzyCond04, hmax] at h
  exact h

theorem cond_of_score04_gt (normP : Str) (v : VerseN)
    (hpw : 0 < (wordSet normP).length)
    (h : ((3:ℕ):ℚ)/((5:ℕ):ℚ) < score04 normP v) : fuzzyCond04 normP v := by
  have hmax : max (wordSet normP).length 1 = (wordSet normP).length := by
    omega
  simp only [fuzzyCond04, hmax]
  exact h

theorem fuzzyLoop04_spec (normP : Str) :
    ∀ (l : List VerseN) (best : Option (Str × Str)) (s : ℚ),
      ((∀ v ∈ l, fuzzyCond04 normP v → score04 normP v ≤ s) ∧
        fuzzyLoop04 normP best s l = (best, s)) ∨
      (∃ l1 v l2, l = l1 ++ v :: l2 ∧ fuzzyCond04 normP v ∧
        s < score04 normP v ∧
        (∀ w ∈ l1, fuzzyCond04 normP w → score04 normP w < score04 normP v) ∧
        (∀ w ∈ l2, fuzzyCond04 normP w → score04 normP w ≤ score04 normP v) ∧
        fuzzyLoop04 normP best s l =
          (some (v.ref, v.text), score04 normP v)) := by
  intro l
  induction l with
  | nil =>
    intro best s
    left
    exact ⟨by simp, rfl⟩
  | cons v rest ih =>
    intro best s
    by_cases hc : fuzzyCond04 normP v
    · by_cases himp : s < score04 normP v
      · have hstep : fuzzyLoop04 normP best s (v :: rest) =
            fuzzyLoop04 normP (some (v.ref, v.text)) (score04 normP v) rest := by
          rw [fuzzyLoop04, if_pos hc, if_pos himp]
        rcases ih (some (v.ref, v.text)) (score04 normP v) with
          ⟨hall, heq⟩ | ⟨l1, u, l2, hdec, hcu, hgt, h1, h2, heq⟩
        · right
          exact ⟨[], v, rest, rfl, hc, himp, by simp, hall,
            by rw [hstep, heq]⟩
        · right
          refine ⟨v :: l1, u, l2, by rw [hdec, List.cons_append], hcu,
            lt_trans himp hgt, ?_,
            h2, by rw [hstep, heq]⟩
          intro w hw hcw
          rcases List.mem_cons.mp hw with rfl | hw'
          · exact hgt
          · exact h1 w hw' hcw
      · have hstep : fuzzyLoop04 normP best s (v :: rest) =
            fuzzyLoop04 normP best s rest := by
          rw [fuzzyLoop04, if_pos hc, if_neg himp]
        rcases ih best s with
          ⟨hall, heq⟩ | ⟨l1, u, l2, hdec, hcu, hgt, h1, h2, heq⟩
        · left
          refine ⟨?_, by rw [hstep, heq]⟩
          intro w hw hcw
          rcases List.mem_cons.mp hw with rfl | hw'
          · exact not_lt.mp himp
          · exact hall w hw' hcw
        · right
          refine ⟨v :: l1, u, l2, by rw [hdec, List.cons_append], hcu, hgt,
            ?_, h2, by rw [hstep, heq]⟩
          intro w hw hcw
          rcases List.mem_cons.mp hw with rfl | hw'
          · exact lt_of_le_of_lt (not_lt.mp himp) hgt
          · exact h1 w hw' hcw
    · have hstep : fuzzyLoop04 normP best s (v :: rest) =
          fuzzyLoop04 normP best s rest := by
        rw [fuzzyLoop04, if_neg hc]
      rcases ih best s with
        ⟨hall, heq⟩ | ⟨l1, u, l2, hdec, hcu, hgt, h1, h2, heq⟩
      · left
        refine ⟨?_, by rw [hstep, heq]⟩
        intro w hw hcw
        rcases List.mem_cons.mp hw with rfl | hw'
        · exact absurd hcw hc
        · exact hall w hw' hcw
      · right
        refine ⟨v :: l1, u, l2, by rw [hdec, List.cons_append], hcu, hgt,
          ?_, h2, by rw [hstep, heq]⟩
        intro w hw hcw
        rcases List.mem_cons.mp hw with rfl | hw'
        · exact absurd hcw hc
        · exact h1 w hw' hcw

theorem leadsWith_refl (s : Str) : leadsWith s s = true := by
  induction s with
  | nil => rfl
  | cons c t ih => simp [leadsWith, ih]

theorem isSubstr_refl (s : Str) : isSubstr s s = true := by
  cases s with
  | nil => rfl
  | cons c t => simp [isSubstr, leadsWith_refl]

/-- If the fuzzy stage is reached (no containing verse) then `matchOne04`
returns a result exactly when some verse qualifies under the fuzzy test. -/
theorem matchOne04_fuzzy_iff (nvs : List VerseN) (phrase : Str)
    (hf : nvs.find? (fun v => isSubstr (normPhrase04 phrase) v.norm) = none) :
    (matchOne04 nvs phrase).isSome = true ↔
      ∃ v ∈ nvs, fuzzyCond04 (normPhrase04 phrase) v := by
  constructor
  · intro h
    rcases Option.isSome_iff_exists.mp h with ⟨r, hr⟩
    rw [matchOne04, hf] at hr
    rcases fuzzyLoop04_spec (normPhrase04 phrase) nvs none 0 with
      ⟨_, heq⟩ | ⟨l1, u, l2, hdec, hcu, _, _, _, heq⟩
    · rw [heq] at hr
      simp at hr
    · exact ⟨u, by rw [hdec]; simp, hcu⟩
  · rintro ⟨v, hv, hcv⟩
    rcases fuzzyLoop04_spec (normPhrase04 phrase) nvs none 0 with
      ⟨hall, heq⟩ | ⟨l1, u, l2, hdec, hcu, _, h1, h2, heq⟩
    · have := hall v hv hcv
      have hpos := score04_pos_of_cond _ v hcv
      exact absurd (lt_of_lt_of_le hpos this) (by simp)
    · have hscoreu : ((3:ℕ):ℚ)/((5:ℕ):ℚ) < score04 (normPhrase04 phrase) u := by
        have hvle : score04 (normPhrase04 phrase) v ≤
            score04 (normPhrase04 phrase) u := by
          rw [hdec] at hv
          rcases List.mem_append.mp hv with hv1 | hv2
          · exact le_of_lt (h1 v hv1 hcv)
          · rcases List.mem_cons.mp hv2 with rfl | hv3
            · exact le_refl _
            · exact h2 v hv3 hcv
        exact lt_of_lt_of_le (score04_gt_of_cond _ v hcv) hvle
      rw [matchOne04, hf, heq]
      simp only [Option.isSome]
      rw [if_pos hscoreu]

/-- When the fuzzy stage is reached and succeeds, the accepted verse is one
with maximal score: every qualifying verse scores at most as much, earlier
qualifying verses score strictly less. -/
theorem matchOne04_fuzzy_best (nvs : List VerseN) (phrase : Str) (r : Result04)
    (hf : nvs.find? (fun v => isSubstr (normPhrase04 phrase) v.norm) = none)
    (hr : matchOne04 nvs phrase = some r) :
    ∃ l1 u l2, nvs = l1 ++ u :: l2 ∧ r.reference = u.ref ∧
      fuzzyCond04 (normPhrase04 phrase) u ∧
      (∀ w ∈ l1, fuzzyCond04 (normPhrase04 phrase) w →
        score04 (normPhrase04 phrase) w < score04 (normPhrase04 phrase) u) ∧
      (∀ w ∈ l2, fuzzyCond04 (normPhrase04 phrase) w →
        score04 (normPhrase04 phrase) w ≤ score04 (normPhrase04 phrase) u) := by
  rw [matchOne04, hf] at hr
  rcases fuzzyLoop04_spec (normPhrase04 phrase) nvs none 0 with
    ⟨_, heq⟩ | ⟨l1, u, l2, hdec, hcu, _, h1, h2, heq⟩
  · rw [heq] at hr
    simp at hr
  · rw [heq] at hr
    have hr' : (if ((3:ℕ):ℚ)/((5:ℕ):ℚ) < score04 (normPhrase04 phrase) u
        then some (Result04.mk u.ref phrase u.text) else none) = some r := hr
    by_cases hacc : ((3:ℕ):ℚ)/((5:ℕ):ℚ) < score04 (normPhrase04 phrase) u
    · rw [if_pos hacc] at hr'
      have : r.reference = u.ref := by
        cases hr'
        rfl
      exact ⟨l1, u, l2, hdec, this, hcu, h1, h2⟩
    · rw [if_neg hacc] at hr'
      exact absurd hr' (by simp)

theorem fuzzy03_isSome_iff (normP phrase : Str) (verses : List VerseRow)
    (entries : List (Str × Nat × Str)) :
    (fuzzy03 normP phrase verses entries).isSome = true ↔
      ∃ e ∈ entries, accept03 normP verses e := by
  induction entries with
  | nil => simp [fuzzy03]
  | cons e rest ih =>
    rcases e with ⟨k, row, orig⟩
    by_cases hg : (isSubstr normP k || isSubstr k normP) = true
    · by_cases hs : simCond03 normP k
      · cases hv : find_verse_after_subhead row verses with
        | some v =>
          rw [show fuzzy03 normP phrase verses ((k, row, orig) :: rest) =
              some ⟨v.ref, phrase, orig⟩ from by
            rw [fuzzy03, if_pos hg, if_pos hs, hv]]
          simp only [Option.isSome, true_iff]
          exact ⟨(k, row, orig), List.mem_cons_self ..,
            hg, hs, by rw [hv]; rfl⟩
        | none =>
          rw [show fuzzy03 normP phrase verses ((k, row, orig) :: rest) =
              fuzzy03 normP phrase verses rest from by
            rw [fuzzy03, if_pos hg, if_pos hs, hv]]
          rw [ih]
          constructor
          · rintro ⟨e', he', ha⟩
            exact ⟨e', List.mem_cons_of_mem _ he', ha⟩
          · rintro ⟨e', he', ha⟩
            rcases List.mem_cons.mp he' with rfl | he''
            · exact absurd ha.2.2 (by rw [hv]; simp)
            · exact ⟨e', he'', ha⟩
      · rw [show fuzzy03 normP phrase verses ((k, row, orig) :: rest) =
            fuzzy03 normP phrase verses rest from by
          rw [fuzzy03, if_pos hg, if_neg hs]]
        rw [ih]
        constructor
        · rintro ⟨e', he', ha⟩
          exact ⟨e', List.mem_cons_of_mem _ he', ha⟩
        · rintro ⟨e', he', ha⟩
          rcases List.mem_cons.mp he' with rfl | he''
          · exact absurd ha.2.1 hs
          · exact ⟨e', he'', ha⟩
    · rw [show fuzzy03 normP phrase verses ((k, row, orig) :: rest) =
          fuzzy03 normP phrase verses rest from by
        rw [fuzzy03, if_neg hg]]
      rw [ih]
      constructor
      · rintro ⟨e', he', ha⟩
        exact ⟨e', List.mem_cons_of_mem _ he', ha⟩
      · rintro ⟨e', he', ha⟩
        rcases List.mem_cons.mp he' with rfl | he''
        · exact absurd ha.1 hg
        · exact ⟨e', he'', ha⟩

theorem fuzzy03_first (normP phrase : Str) (verses : List VerseRow) :
    ∀ (entries : List (Str × Nat × Str)) (r : Result03),
      fuzzy03 normP phrase verses entries = some r →
      ∃ e1 e e2, entries = e1 ++ e :: e2 ∧ accept03 normP verses e ∧
        (∀ e' ∈ e1, ¬ accept03 normP verses e') ∧
        ∃ v, find_verse_after_subhead e.2.1 verses = some v ∧
          r = ⟨v.ref, phrase, e.2.2⟩ := by
  intro entries
  induction entries with
  | nil => intro r h; simp [fuzzy03] at h
  | cons e rest ih =>
    intro r h
    rcases e with ⟨k, row, orig⟩
    by_cases hg : (isSubstr normP k || isSubstr k normP) = true
    · by_cases hs : simCond03 normP k
      · cases hv : find_verse_after_subhead row verses with
        | some v =>
          rw [fuzzy03, if_pos hg, if_pos hs, hv] at h
          cases h
          exact ⟨[], (k, row, orig), rest, rfl,
            ⟨hg, hs, by rw [hv]; rfl⟩, by simp, v, hv, rfl⟩
        | none =>
          rw [fuzzy03, if_pos hg, if_pos hs, hv] at h
          rcases ih r h with ⟨e1, e, e2, hdec, ha, hnone, hv'⟩
          refine ⟨(k, row, orig) :: e1, e, e2, by rw [hdec, List.cons_append],
            ha, ?_, hv'⟩
          intro e' he'
          rcases List.mem_cons.mp he' with rfl | he''
          · intro ha'
            exact absurd ha'.2.2 (by rw [hv]; simp)
          · exact hnone e' he''
      · rw [fuzzy03, if_pos hg, if_neg hs] at h
        rcases ih r h with ⟨e1, e, e2, hdec, ha, hnone, hv'⟩
        refine ⟨(k, row, orig) :: e1, e, e2, by rw [hdec, List.cons_append],
          ha, ?_, hv'⟩
        intro e' he'
        rcases List.mem_cons.mp he' with rfl | he''
        · intro ha'
          exact absurd ha'.2.1 hs
        · exact hnone e' he''
    · rw [fuzzy03, if_neg hg] at h
      rcases ih r h with ⟨e1, e, e2, hdec, ha, hnone, hv'⟩
      refine ⟨(k, row, orig) :: e1, e, e2, by rw [hdec, List.cons_append],
        ha, ?_, hv'⟩
      intro e' he'
      rcases List.mem_cons.mp he' with rfl | he''
      · intro ha'
        exact absurd ha'.1 hg
      · exact hnone e' he''

theorem matchOne04_phrase (nvs : List VerseN) (p : Str) (r : Result04)
    (h : matchOne04 nvs p = some r) : r.phrase = p := by
  rw [matchOne04] at h
  cases hf : nvs.find? (fun v => isSubstr (normPhrase04 p) v.norm) with
  | some v => rw [hf] at h; cases h; rfl
  | none =>
    rw [hf] at h
    rcases hfl : fuzzyLoop04 (normPhrase04 p) none 0 nvs with ⟨b, c⟩
    rw [hfl] at h
    cases b with
    | none => simp at h
    | some rt =>
      rcases rt with ⟨rr, t⟩
      have h' : (if ((3:ℕ):ℚ)/((5:ℕ):ℚ) < c then some (Result04.mk rr p t)
          else none) = some r := h
      by_cases hacc : ((3:ℕ):ℚ)/((5:ℕ):ℚ) < c
      · rw [if_pos hacc] at h'; cases h'; rfl
      · rw [if_neg hacc] at h'; simp at h'

theorem strat1_subhead (subs : List SubheadE) (verses : List VerseRow)
    (p : Str) (r : Result03) (h : strat1 subs verses p = some r) :
    r.subhead = p := by
  rw [strat1] at h
  cases h1 : cleanLookup subs (clean_text_content p) with
  | none => rw [h1] at h; simp at h
  | some sh =>
    rw [h1] at h
    have h' : (match find_verse_after_subhead sh.row verses with
        | some v => some (Result03.mk v.ref p sh.orig)
        | none => none) = some r := h
    cases h2 : find_verse_after_subhead sh.row verses with
    | none => rw [h2] at h'; simp at h'
    | some v => rw [h2] at h'; cases h'; rfl

theorem strat2_subhead (subs : List SubheadE) (verses : List VerseRow)
    (p : Str) (r : Result03) (h : strat2 subs verses p = some r) :
    r.subhead = p := by
  rw [strat2] at h
  cases h1 : (normEntries subs).find? (fun e => e.1 == normPhrase03 p) with
  | none => rw [h1] at h; simp at h
  | some e =>
    rw [h1] at h
    have h' : (match find_verse_after_subhead e.2.1 verses with
        | some v => some (Result03.mk v.ref p e.2.2)
        | none => none) = some r := h
    cases h2 : find_verse_after_subhead e.2.1 verses with
    | none => rw [h2] at h'; simp at h'
    | some v => rw [h2] at h'; cases h'; rfl

theorem strat4_subhead (subs : List SubheadE) (verses : List VerseRow)
    (p : Str) (r : Result03) (h : strat4 subs verses p = some r) :
    r.subhead = p := by
  rw [strat4] at h
  cases h1 : origLookup subs p with
  | none => rw [h1] at h; simp at h
  | some sh =>
    rw [h1] at h
    have h' : (match find_verse_after_subhead sh.row verses with
        | some v => some (Result03.mk v.ref p p)
        | none => none) = some r := h
    cases h2 : find_verse_after_subhead sh.row verses with
    | none => rw [h2] at h'; simp at h'
    | some v => rw [h2] at h'; cases h'; rfl

theorem fuzzy03_subhead (normP p : Str) (verses : List VerseRow)
    (entries : List (Str × Nat × Str)) (r : Result03)
    (h : fuzzy03 normP p verses entries = some r) : r.subhead = p := by
  rcases fuzzy03_first normP p verses entries r h with
    ⟨e1, e, e2, _, _, _, v, _, hr⟩
  rw [hr]

theorem matchOne03_subhead (subs : List SubheadE) (verses : List VerseRow)
    (p : Str) (r : Result03) (h : matchOne03 subs verses p = some r) :
    r.subhead = p := by
  rw [matchOne03] at h
  cases h1 : strat1 subs verses p with
  | some r1 =>
    rw [h1] at h; cases h; exact strat1_subhead subs verses p _ h1
  | none =>
    rw [h1] at h
    cases h2 : strat2 subs verses p with
    | some r2 =>
      rw [h2] at h; cases h; exact strat2_subhead subs verses p _ h2
    | none =>
      rw [h2] at h
      cases h3 : fuzzy03 (normPhrase03 p) p verses (normEntries subs) with
      | some r3 =>
        rw [h3] at h; cases h; exact fuzzy03_subhead _ p verses _ _ h3
      | none =>
        rw [h3] at h
        exact strat4_subhead subs verses p _ h

theorem matchGo04_count (nvs : List VerseN) (phrases : List Str) (p : Str) :
    ((matchGo04 nvs phrases).1.map Result04.phrase).count p +
      (matchGo04 nvs phrases).2.count p = phrases.count p := by
  induction phrases with
  | nil => rfl
  | cons q ps ih =>
    rw [matchGo04]
    cases hm : matchOne04 nvs q with
    | some r =>
      have hq : r.phrase = q := matchOne04_phrase nvs q r hm
      show ((r :: (matchGo04 nvs ps).1).map Result04.phrase).count p +
        ((matchGo04 nvs ps).2).count p = (q :: ps).count p
      rw [List.map_cons, hq]
      by_cases hpq : q = p
      · subst hpq
        simp only [List.count_cons_self]
        omega
      · rw [List.count_cons_of_ne (fun hh => hpq hh.symm),
          List.count_cons_of_ne (fun hh => hpq hh.symm)]
        exact ih
    | none =>
      show ((matchGo04 nvs ps).1.map Result04.phrase).count p +
        (q :: (matchGo04 nvs ps).2).count p = (q :: ps).count p
      by_cases hpq : q = p
      · subst hpq
        simp only [List.count_cons_self]
        omega
      · rw [List.count_cons_of_ne (fun hh => hpq hh.symm),
          List.count_cons_of_ne (fun hh => hpq hh.symm)]
        exact ih

theorem matchGo03_count (subs : List SubheadE) (verses : List VerseRow)
    (phrases : List Str) (p : Str) :
    ((matchGo03 subs verses phrases).1.map Result03.subhead).count p +
      (matchGo03 subs verses phrases).2.count p = phrases.count p := by
  induction phrases with
  | nil => rfl
  | cons q ps ih =>
    rw [matchGo03]
    cases hm : matchOne03 subs verses q with
    | some r =>
      have hq : r.subhead = q := matchOne03_subhead subs verses q r hm
      show ((r :: (matchGo03 subs verses ps).1).map Result03.subhead).count p +
        ((matchGo03 subs verses ps).2).count p = (q :: ps).count p
      rw [List.map_cons, hq]
      by_cases hpq : q = p
      · subst hpq
        simp only [List.count_cons_self]
        omega
      · rw [List.count_cons_of_ne (fun hh => hpq hh.symm),
          List.count_cons_of_ne (fun hh => hpq hh.symm)]
        exact ih
    | none =>
      show ((matchGo03 subs verses ps).1.map Result03.subhead).count p +
        (q :: (matchGo03 subs verses ps).2).count p = (q :: ps).count p
      by_cases hpq : q = p
      · subst hpq
        simp only [List.count_cons_self]
        omega
      · rw [List.count_cons_of_ne (fun hh => hpq hh.symm),
          List.count_cons_of_ne (fun hh => hpq hh.symm)]
        exact ih

theorem find?_isSome_of_mem {α : Type} (l : List α) (q : α → Bool) (x : α)
    (hx : x ∈ l) (hq : q x = true) : ∃ y, l.find? q = some y := by
  induction l with
  | nil => exact absurd hx (by simp)
  | cons a t ih =>
    by_cases ha : q a = true
    · exact ⟨a, by rw [List.find?_cons_of_pos _ ha]⟩
    · rcases List.mem_cons.mp hx with rfl | hx'
      · exact absurd hq ha
      · rcases ih hx' with ⟨y, hy⟩
        exact ⟨y, by rw [List.find?_cons_of_neg _ ha]; exact hy⟩

/-- C1 (amended): the fuzzy similarity compared with the threshold is, for
the phrase-in-verse matcher (threshold 0.6 = 3/5), `|word-set intersection| /
max(|phrase word set|, 1)` — the candidate's word count plays no role — and,
for the subhead matcher (threshold 0.7 = 7/10), `|word-set intersection| /
max(phrase token count, candidate token count)`, additionally gated on
one-sided containment and on a verse following the matched subhead. -/
theorem c1_fuzzy_score_amended :
    (∀ (nvs : List VerseN) (phrase : Str),
      nvs.find? (fun v => isSubstr (normPhrase04 phrase) v.norm) = none →
      ((matchOne04 nvs phrase).isSome = true ↔
        ∃ v ∈ nvs, ((3:ℕ):ℚ)/((5:ℕ):ℚ) <
          ((interCard (wordSet (normPhrase04 phrase)) (wordSet v.norm) : ℕ):ℚ) /
            ((max (wordSet (normPhrase04 phrase)).length 1 : ℕ):ℚ))) ∧
    (∀ (normP phrase : Str) (verses : List VerseRow)
        (entries : List (Str × Nat × Str)),
      (fuzzy03 normP phrase verses entries).isSome = true ↔
        ∃ e ∈ entries,
          (isSubstr normP e.1 || isSubstr e.1 normP) = true ∧
          (((7:ℕ):ℚ)/((10:ℕ):ℚ) <
            ((interCard (wordSet normP) (splitWs e.1) : ℕ):ℚ) /
              ((max (splitWs normP).length (splitWs e.1).length : ℕ):ℚ)) ∧
          (find_verse_after_subhead e.2.1 verses).isSome = true) :=
  ⟨fun nvs phrase hf => matchOne04_fuzzy_iff nvs phrase hf,
   fun normP phrase verses entries => fuzzy03_isSome_iff normP phrase verses entries⟩

/-- C1 witness: a concrete fuzzy-stage run of the phrase matcher. -/
theorem c1_witness :
    (normalizeVerses [⟨"R".toList, "a b".toList, 1⟩]).find?
        (fun v => isSubstr (normPhrase04 "b a".toList) v.norm) = none ∧
    ((matchOne04 (normalizeVerses [⟨"R".toList, "a b".toList, 1⟩])
        "b a".toList).isSome = true ↔
      ∃ v ∈ normalizeVerses [⟨"R".toList, "a b".toList, 1⟩],
        ((3:ℕ):ℚ)/((5:ℕ):ℚ) <
          ((interCard (wordSet (normPhrase04 "b a".toList))
              (wordSet v.norm) : ℕ):ℚ) /
            ((max (wordSet (normPhrase04 "b a".toList)).length 1 : ℕ):ℚ)) :=
  ⟨by decide, c1_fuzzy_score_amended.1 _ _ (by decide)⟩

/-- C1 counterexample: the phrase "b a" is fuzzily matched to a ten-word
verse although the claim's score |intersection| / max(|phrase words|,
|candidate words|) = 2/10 does not exceed 0.6: the code divides only by the
phrase's word count. -/
theorem c1_counterexample :
    (match_phrases_to_verses ["b a".toList]
        [⟨"R".toList, "a b c d e f g h i j".toList, 1⟩]).1 =
      [⟨"R".toList, "b a".toList, "a b c d e f g h i j".toList⟩] ∧
    (normalizeVerses [⟨"R".toList, "a b c d e f g h i j".toList, 1⟩]).find?
        (fun v => isSubstr (normPhrase04 "b a".toList) v.norm) = none ∧
    ¬ (((3:ℕ):ℚ)/((5:ℕ):ℚ) <
        ((interCard (wordSet (normPhrase04 "b a".toList))
            (wordSet (normalize_apostrophes
              (lowerStr "a b c d e f g h i j".toList))) : ℕ):ℚ) /
          ((max (wordSet (normPhrase04 "b a".toList)).length
            (wordSet (normalize_apostrophes
              (lowerStr "a b c d e f g h i j".toList))).length : ℕ):ℚ)) := by
  refine ⟨?_, by decide, ?_⟩
  · rw [match_phrases_to_verses, matchGo04, matchOne04_eq_twin]
    decide
  · intro hcon
    exact absurd ((divLt_iff ..).mp hcon) (by decide)

/-- C2 (amended): in the phrase-to-verse matcher the fuzzy stage accepts a
candidate of maximal score (earlier qualifying candidates score strictly
less, later ones at most as much) — not the first qualifying one; in the
subhead matcher the first entry passing gate, threshold and verse lookup
wins, with entries lacking a following verse skipped. -/
theorem c2_selection_amended :
    (∀ (nvs : List VerseN) (phrase : Str) (r : Result04),
      nvs.find? (fun v => isSubstr (normPhrase04 phrase) v.norm) = none →
      matchOne04 nvs phrase = some r →
      ∃ l1 u l2, nvs = l1 ++ u :: l2 ∧ r.reference = u.ref ∧
        fuzzyCond04 (normPhrase04 phrase) u ∧
        (∀ w ∈ l1, fuzzyCond04 (normPhrase04 phrase) w →
          score04 (normPhrase04 phrase) w < score04 (normPhrase04 phrase) u) ∧
        (∀ w ∈ l2, fuzzyCond04 (normPhrase04 phrase) w →
          score04 (normPhrase04 phrase) w ≤ score04 (normPhrase04 phrase) u)) ∧
    (∀ (normP phrase : Str) (verses : List VerseRow)
        (entries : List (Str × Nat × Str)) (r : Result03),
      fuzzy03 normP phrase verses entries = some r →
      ∃ e1 e e2, entries = e1 ++ e :: e2 ∧ accept03 normP verses e ∧
        (∀ e' ∈ e1, ¬ accept03 normP verses e') ∧
        ∃ v, find_verse_after_subhead e.2.1 verses = some v ∧
          r = ⟨v.ref, phrase, e.2.2⟩) :=
  ⟨fun nvs phrase r hf hr => matchOne04_fuzzy_best nvs phrase r hf hr,
   fun normP phrase verses entries r h =>
     fuzzy03_first normP phrase verses entries r h⟩

/-- C2 witness: a concrete fuzzy acceptance in the phrase matcher. -/
theorem c2_witness :
    (normalizeVerses [⟨"R".toList, "c d".toList, 1⟩]).find?
        (fun v => isSubstr (normPhrase04 "d c".toList) v.norm) = none ∧
    matchOne04 (normalizeVerses [⟨"R".toList, "c d".toList, 1⟩]) "d c".toList =
      some ⟨"R".toList, "d c".toList, "c d".toList⟩ ∧
    (∃ l1 u l2,
      normalizeVerses [⟨"R".toList, "c d".toList, 1⟩] = l1 ++ u :: l2 ∧
      (Result04.mk "R".toList "d c".toList "c d".toList).reference = u.ref ∧
      fuzzyCond04 (normPhrase04 "d c".toList) u ∧
      (∀ w ∈ l1, fuzzyCond04 (normPhrase04 "d c".toList) w →
        score04 (normPhrase04 "d c".toList) w <
          score04 (normPhrase04 "d c".toList) u) ∧
      (∀ w ∈ l2, fuzzyCond04 (normPhrase04 "d c".toList) w →
        score04 (normPhrase04 "d c".toList) w ≤
          score04 (normPhrase04 "d c".toList) u)) :=
  ⟨by decide, by rw [matchOne04_eq_twin]; decide,
   c2_selection_amended.1 _ _ _ (by decide)
     (by rw [matchOne04_eq_twin]; decide)⟩

/-- C2 counterexample: with two verses both exceeding the 0.6 threshold
(scores 0.8 and 1.0 in corpus order), the phrase matcher returns the
second, higher-scoring verse "R2" — not the first qualifying one "R1". -/
theorem c2_counterexample :
    (match_phrases_to_verses ["a b c d e".toList]
        [⟨"R1".toList, "a b c d q".toList, 1⟩,
         ⟨"R2".toList, "e d c b a".toList, 2⟩]).1 =
      [⟨"R2".toList, "a b c d e".toList, "e d c b a".toList⟩] ∧
    (normalizeVerses [⟨"R1".toList, "a b c d q".toList, 1⟩,
        ⟨"R2".toList, "e d c b a".toList, 2⟩]).find?
      (fun v => isSubstr (normPhrase04 "a b c d e".toList) v.norm) = none ∧
    fuzzyCond04 (normPhrase04 "a b c d e".toList)
      ⟨"R1".toList, "a b c d q".toList,
        normalize_apostrophes (lowerStr "a b c d q".toList), 1⟩ ∧
    "R1".toList ≠ "R2".toList := by
  refine ⟨?_, by decide, ?_, by decide⟩
  · rw [match_phrases_to_verses, matchGo04, matchOne04_eq_twin]
    decide
  · exact (divLt_iff ..).mpr (by decide)

/-- C4 (amended): an exact normalized match guarantees a result without the
fuzzy stage, but in the phrase matcher the returned reference is that of the
first verse whose normalized text merely contains the phrase, which need not
be the exactly matching verse; in the subhead matcher the exact match's
reference is returned provided a verse follows the matched subhead's row
(otherwise the code falls through to fuzzy matching). -/
theorem c4_exact_priority_amended :
    (∀ (nvs : List VerseN) (phrase : Str) (v0 : VerseN),
      v0 ∈ nvs → normPhrase04 phrase = v0.norm →
      ∃ v, nvs.find? (fun w => isSubstr (normPhrase04 phrase) w.norm) = some v ∧
        matchOne04 nvs phrase = some ⟨v.ref, phrase, v.text⟩) ∧
    (∀ (subs : List SubheadE) (verses : List VerseRow) (phrase : Str)
        (sh : SubheadE) (v : VerseRow),
      cleanLookup subs (clean_text_content phrase) = some sh →
      find_verse_after_subhead sh.row verses = some v →
      matchOne03 subs verses phrase = some ⟨v.ref, phrase, sh.orig⟩) := by
  constructor
  · intro nvs phrase v0 hv0 hnorm
    have hp : isSubstr (normPhrase04 phrase) v0.norm = true := by
      rw [← hnorm]
      exact isSubstr_refl _
    obtain ⟨v, hv⟩ := find?_isSome_of_mem nvs
      (fun w => isSubstr (normPhrase04 phrase) w.norm) v0 hv0 hp
    exact ⟨v, hv, by rw [matchOne04, hv]⟩
  · intro subs verses phrase sh v h1 h2
    have hs1 : strat1 subs verses phrase = some ⟨v.ref, phrase, sh.orig⟩ := by
      rw [strat1, h1]
      show (match find_verse_after_subhead sh.row verses with
          | some v => some (Result03.mk v.ref phrase sh.orig)
          | none => none) = some (Result03.mk v.ref phrase sh.orig)
      rw [h2]
    rw [matchOne03, hs1]

/-- C4 witness: concrete exact matches resolved by both matchers. -/
theorem c4_witness :
    ((⟨"R".toList, "a b".toList,
        normalize_apostrophes (lowerStr "a b".toList), 1⟩ : VerseN) ∈
        normalizeVerses [⟨"R".toList, "a b".toList, 1⟩] ∧
      normPhrase04 "a b".toList =
        (VerseN.mk "R".toList "a b".toList
          (normalize_apostrophes (lowerStr "a b".toList)) 1).norm ∧
      ∃ v, (normalizeVerses [⟨"R".toList, "a b".toList, 1⟩]).find?
          (fun w => isSubstr (normPhrase04 "a b".toList) w.norm) = some v ∧
        matchOne04 (normalizeVerses [⟨"R".toList, "a b".toList, 1⟩])
          "a b".toList = some ⟨v.ref, "a b".toList, v.text⟩) ∧
    (cleanLookup [⟨"t".toList, 1, "T".toList⟩]
        (clean_text_content "t".toList) = some ⟨"t".toList, 1, "T".toList⟩ ∧
      find_verse_after_subhead 1 [⟨"G 1:1".toList, "x".toList, 2⟩] =
        some ⟨"G 1:1".toList, "x".toList, 2⟩ ∧
      matchOne03 [⟨"t".toList, 1, "T".toList⟩]
        [⟨"G 1:1".toList, "x".toList, 2⟩] "t".toList =
        some ⟨"G 1:1".toList, "t".toList, "T".toList⟩) :=
  ⟨⟨by decide, by decide,
    c4_exact_priority_amended.1 (normalizeVerses [⟨"R".toList, "a b".toList, 1⟩])
      "a b".toList
      ⟨"R".toList, "a b".toList,
        normalize_apostrophes (lowerStr "a b".toList), 1⟩
      (by decide) (by decide)⟩,
   ⟨by decide, by decide,
    c4_exact_priority_amended.2 [⟨"t".toList, 1, "T".toList⟩]
      [⟨"G 1:1".toList, "x".toList, 2⟩] "t".toList
      ⟨"t".toList, 1, "T".toList⟩ ⟨"G 1:1".toList, "x".toList, 2⟩
      (by decide) (by decide)⟩⟩

/-- C4 counterexample: phrase "a b c" exactly equals verse R2's normalized
text, yet the matcher returns R1, an earlier verse that merely contains the
phrase — the exact match's reference is not returned. -/
theorem c4_counterexample :
    (∃ v ∈ normalizeVerses [⟨"R1".toList, "x a b c x".toList, 1⟩,
        ⟨"R2".toList, "a b c".toList, 2⟩],
      normPhrase04 "a b c".toList = v.norm ∧ v.ref = "R2".toList) ∧
    (match_phrases_to_verses ["a b c".toList]
        [⟨"R1".toList, "x a b c x".toList, 1⟩,
         ⟨"R2".toList, "a b c".toList, 2⟩]).1 =
      [⟨"R1".toList, "a b c".toList, "x a b c x".toList⟩] ∧
    "R1".toList ≠ "R2".toList := by
  refine ⟨by decide, ?_, by decide⟩
  rw [match_phrases_to_verses, matchGo04]
  decide

/-- C5: every input phrase lands exactly once in the combined
matched-plus-not-found output of each matcher: for every phrase value, its
multiplicity in the input equals the sum of its multiplicities in the
matched results and in the not-found list. -/
theorem c5_each_phrase_once (phrases : List Str) (p : Str)
    (verses : List VerseRow) (subs : List SubheadE) :
    (((match_phrases_to_verses phrases verses).1.map Result04.phrase).count p +
        (match_phrases_to_verses phrases verses).2.count p =
      phrases.count p) ∧
    (((match_subheads_to_verses phrases subs verses).1.map
          Result03.subhead).count p +
        (match_subheads_to_verses phrases subs verses).2.count p =
      phrases.count p) :=
  ⟨matchGo04_count (normalizeVerses verses) phrases p,
   matchGo03_count subs verses phrases p⟩

/-- C6 (amended): the phrase matcher's containment stage is one-directional:
whenever the scan for the first verse whose normalized text contains the
normalized phrase succeeds, that verse's record is returned. -/
theorem c6_containment_amended (nvs : List VerseN) (phrase : Str) (v : VerseN)
    (h : nvs.find? (fun w => isSubstr (normPhrase04 phrase) w.norm) = some v) :
    matchOne04 nvs phrase = some ⟨v.ref, phrase, v.text⟩ := by
  rw [matchOne04, h]

/-- C6 witness: the spec's own example — phrase "beginning God created" is
contained in the verse text of "Genesis 1:1" and matched to it. -/
theorem c6_witness :
    (normalizeVerses [⟨"Genesis 1:1".toList,
        "In the beginning God created".toList, 1⟩]).find?
      (fun w => isSubstr (normPhrase04 "beginning God created".toList)
        w.norm) =
      some ⟨"Genesis 1:1".toList, "In the beginning God created".toList,
        normalize_apostrophes
          (lowerStr "In the beginning God created".toList), 1⟩ ∧
    matchOne04 (normalizeVerses [⟨"Genesis 1:1".toList,
        "In the beginning God created".toList, 1⟩])
      "beginning God created".toList =
      some ⟨"Genesis 1:1".toList, "beginning God created".toList,
        "In the beginning God created".toList⟩ :=
  ⟨by decide,
   c6_containment_amended
     (normalizeVerses [⟨"Genesis 1:1".toList,
       "In the beginning God created".toList, 1⟩])
     "beginning God created".toList
     ⟨"Genesis 1:1".toList, "In the beginning God created".toList,
       normalize_apostrophes
         (lowerStr "In the beginning God created".toList), 1⟩
     (by decide)⟩

/-- C6 counterexample: the candidate text "a b" is a substring of the
phrase, but not conversely; the claim says containment succeeds in either
direction, yet the phrase is reported not-found (the fuzzy ratio 2/7 also
fails). -/
theorem c6_counterexample :
    isSubstr (normalize_apostrophes (lowerStr "a b".toList))
        (normPhrase04 "p q r s t a b".toList) = true ∧
    match_phrases_to_verses ["p q r s t a b".toList]
        [⟨"R1".toList, "a b".toList, 1⟩] =
      ([], ["p q r s t a b".toList]) := by
  refine ⟨by decide, ?_⟩
  rw [match_phrases_to_verses, matchGo04, matchOne04_eq_twin]
  decide

theorem partsOK_nil : partsOK [] := by
  intro p hp
  simp at hp

theorem partsOK_append (parts : List Str) (c : Str) (h : partsOK parts)
    (hc : cleanContent c ≠ []) : partsOK (parts ++ [cleanContent c]) := by
  intro p hp
  rcases List.mem_append.mp hp with hp1 | hp2
  · exact h p hp1
  · have : p = cleanContent c := by simpa using hp2
    subst this
    exact ⟨hc, headNotWs_stripEnds _, noTrailWs_stripEnds _⟩

theorem noTrailWs_cons_of_ne (a : Char) (l : Str) (h : l ≠ []) :
    noTrailWs (a :: l) = noTrailWs l := by
  cases l with
  | nil => exact absurd rfl h
  | cons b r => rfl

theorem noTrailWs_append (x y : Str) (h : y ≠ []) :
    noTrailWs (x ++ y) = noTrailWs y := by
  rw [noTrailWs_eq_headNotWs_reverse, noTrailWs_eq_headNotWs_reverse,
    List.reverse_append, headNotWs_append _ _ (by simpa using h)]

theorem joinSpace_ne_nil (parts : List Str) (h : partsOK parts)
    (hne : parts ≠ []) : joinSpace parts ≠ [] := by
  cases parts with
  | nil => exact absurd rfl hne
  | cons p rest =>
    cases rest with
    | nil =>
      exact (h p (by simp)).1
    | cons q r =>
      show p ++ ' ' :: joinSpace (q :: r) ≠ []
      have hp : p ≠ [] := (h p (by simp)).1
      simp [hp]

theorem joinSpace_headNotWs (parts : List Str) (h : partsOK parts) :
    headNotWs (joinSpace parts) = true := by
  cases parts with
  | nil => rfl
  | cons p rest =>
    have hp := h p (by simp)
    cases rest with
    | nil => exact hp.2.1
    | cons q r =>
      show headNotWs (p ++ ' ' :: joinSpace (q :: r)) = true
      rw [headNotWs_append _ _ hp.1]
      exact hp.2.1

theorem joinSpace_noTrailWs (parts : List Str) (h : partsOK parts) :
    noTrailWs (joinSpace parts) = true := by
  induction parts with
  | nil => rfl
  | cons p rest ih =>
    cases rest with
    | nil => exact (h p (by simp)).2.2
    | cons q r =>
      have hrest : partsOK (q :: r) := by
        intro x hx
        exact h x (List.mem_cons_of_mem _ hx)
      have hj : joinSpace (q :: r) ≠ [] := joinSpace_ne_nil _ hrest (by simp)
      show noTrailWs (p ++ ' ' :: joinSpace (q :: r)) = true
      rw [noTrailWs_append _ _ (by simp), noTrailWs_cons_of_ne _ _ hj]
      exact ih hrest

theorem joinSpace_strip (parts : List Str) (h : partsOK parts)
    (hne : parts ≠ []) :
    stripEnds (joinSpace parts) = joinSpace parts ∧
      stripEnds (joinSpace parts) ≠ [] := by
  have hs := stripEnds_eq_self (joinSpace parts) (joinSpace_headNotWs parts h)
    (joinSpace_noTrailWs parts h)
  exact ⟨hs, by rw [hs]; exact joinSpace_ne_nil parts h hne⟩

theorem flushVerse_length (book chap : Str) (verse : Option Str)
    (parts : List Str) (rn : Nat) (acc : List VerseRow) (h : partsOK parts) :
    (flushVerse book chap verse parts rn acc).length =
      acc.length + (if verse.isSome = true ∧ parts ≠ [] then 1 else 0) := by
  cases verse with
  | none => simp [flushVerse]
  | some v =>
    by_cases hp : parts ≠ []
    · rw [flushVerse, if_pos hp, if_pos (joinSpace_strip parts h hp).2]
      simp [hp]
    · rw [flushVerse, if_neg hp]
      simp [hp]

theorem bne_isEmpty_iff (l : Str) : (!l.isEmpty) = true ↔ l ≠ [] := by
  cases l <;> simp

theorem isVerseRow_of_chap (t c : Str) (h : chapCond t c) :
    isVerseRow (t, c) = false := by
  simp [isVerseRow, isChapterRow, h]

theorem isTextRow_of_chap (t c : Str) (h : chapCond t c) :
    isTextRow (t, c) = false := by
  simp [isTextRow, isChapterRow, h]

theorem isVerseRow_true_of (t c : Str) (h1 : ¬ chapCond t c)
    (h2 : verseCond t c) : isVerseRow (t, c) = true := by
  simp [isVerseRow, isChapterRow, h1, h2]

theorem isVerseRow_false_of (t c : Str) (h2 : ¬ verseCond t c) :
    isVerseRow (t, c) = false := by
  simp [isVerseRow, h2]

theorem isTextRow_true_of (t c : Str) (h1 : ¬ chapCond t c)
    (h2 : ¬ verseCond t c) (h3 : textCond t c) (h4 : cleanContent c ≠ []) :
    isTextRow (t, c) = true := by
  simp [isTextRow, isChapterRow, h1, h2, h3, (bne_isEmpty_iff _).mpr h4]

theorem isTextRow_false_noclean (t c : Str) (h4 : cleanContent c = []) :
    isTextRow (t, c) = false := by
  simp [isTextRow, h4]

theorem isTextRow_false_other (t c : Str) (h3 : ¬ textCond t c) :
    isTextRow (t, c) = false := by
  simp [isTextRow, h3]

theorem extractGo_length (book : Str) :
    ∀ (rows : List (Str × Str)) (chap : Str) (verse : Option Str)
      (parts : List Str) (accV : List VerseRow) (accC : List (Str × Nat))
      (rn : Nat), partsOK parts →
      (extractGo book chap verse parts accV accC rn rows).1.length =
        accV.length +
          (if verse.isSome = true ∧ (parts ≠ [] ∨ segHasText rows = true)
            then 1 else 0) +
          amendedCount verse.isSome rows := by
  intro rows
  induction rows with
  | nil =>
    intro chap verse parts accV accC rn hOK
    show (flushVerse book chap verse parts rn accV).length = _
    rw [flushVerse_length book chap verse parts rn accV hOK]
    simp [segHasText, amendedCount]
  | cons r rest ih =>
    intro chap verse parts accV accC rn hOK
    rcases r with ⟨t, c⟩
    by_cases h1 : chapCond t c
    · have hv : isVerseRow (t, c) = false := isVerseRow_of_chap t c h1
      have ht : isTextRow (t, c) = false := isTextRow_of_chap t c h1
      have hseg : segHasText ((t, c) :: rest) = segHasText rest := by
        rw [segHasText, if_neg (by simp [hv]), if_neg (by simp [ht])]
      have hamc : amendedCount verse.isSome ((t, c) :: rest) =
          amendedCount verse.isSome rest := by
        rw [amendedCount, if_neg (by simp [hv])]
      rw [extractGo, if_pos h1]
      by_cases hd : digitsOf c ≠ []
      · rw [if_pos hd, ih _ _ _ _ _ _ hOK, hseg, hamc]
      · rw [if_neg hd, ih _ _ _ _ _ _ hOK, hseg, hamc]
    · by_cases h2 : verseCond t c
      · have hvr : isVerseRow (t, c) = true := isVerseRow_true_of t c h1 h2
        have hseg0 : segHasText ((t, c) :: rest) = false := by
          rw [segHasText, if_pos (by simp [hvr])]
        have hamc : amendedCount verse.isSome ((t, c) :: rest) =
            (if (verse.isSome || !(digitsOf c).isEmpty) && segHasText rest
              then 1 else 0) +
            amendedCount (verse.isSome || !(digitsOf c).isEmpty) rest := by
          rw [amendedCount, if_pos (by simp [hvr])]
        have hvs : (if digitsOf c ≠ [] then some (digitsOf c)
            else verse).isSome = (verse.isSome || !(digitsOf c).isEmpty) := by
          by_cases hd : digitsOf c ≠ []
          · rw [if_pos hd]
            simp [(bne_isEmpty_iff _).mpr hd]
          · rw [if_neg hd]
            push_neg at hd
            simp [hd]
        rw [extractGo, if_neg h1, if_pos h2, ih _ _ _ _ _ _ partsOK_nil,
          flushVerse_length _ _ _ _ _ _ hOK, hseg0, hamc, hvs]
        have hd4 : ((verse.isSome || !(digitsOf c).isEmpty) = true) ↔
            (verse.isSome = true ∨ digitsOf c ≠ []) := by
          rw [Bool.or_eq_true, bne_isEmpty_iff]
        simp only [Bool.and_eq_true, hd4, ne_eq, not_true_eq_false,
          false_or, or_false, not_false_eq_true]
        split_ifs <;> first | rfl | omega | tauto
      · by_cases h3 : textCond t c
        · by_cases h4 : cleanContent c ≠ []
          · have htr : isTextRow (t, c) = true := isTextRow_true_of t c h1 h2 h3 h4
            have hvf : isVerseRow (t, c) = false := isVerseRow_false_of t c h2
            have hseg1 : segHasText ((t, c) :: rest) = true := by
              rw [segHasText, if_neg (by simp [hvf]), if_pos (by simp [htr])]
            have hamc : amendedCount verse.isSome ((t, c) :: rest) =
                amendedCount verse.isSome rest := by
              rw [amendedCount, if_neg (by simp [hvf])]
            rw [extractGo, if_neg h1, if_neg h2, if_pos h3, if_pos h4,
              ih _ _ _ _ _ _ (partsOK_append parts c hOK h4), hseg1, hamc]
            have hne : parts ++ [cleanContent c] ≠ [] := by simp
            simp only [hne, ne_eq, not_false_eq_true, true_or, or_true]
            all_goals
              first
              | rfl
              | omega
              | tauto
              | (split_ifs <;> first | rfl | omega | tauto)
          · have htf : isTextRow (t, c) = false :=
              isTextRow_false_noclean t c (by push_neg at h4; exact h4)
            have hvf : isVerseRow (t, c) = false := isVerseRow_false_of t c h2
            have hseg : segHasText ((t, c) :: rest) = segHasText rest := by
              rw [segHasText, if_neg (by simp [hvf]), if_neg (by simp [htf])]
            have hamc : amendedCount verse.isSome ((t, c) :: rest) =
                amendedCount verse.isSome rest := by
              rw [amendedCount, if_neg (by simp [hvf])]
            rw [extractGo, if_neg h1, if_neg h2, if_pos h3, if_neg h4,
              ih _ _ _ _ _ _ hOK, hseg, hamc]
        · have htf : isTextRow (t, c) = false := isTextRow_false_other t c h3
          have hvf : isVerseRow (t, c) = false := isVerseRow_false_of t c h2
          have hseg : segHasText ((t, c) :: rest) = segHasText rest := by
            rw [segHasText, if_neg (by simp [hvf]), if_neg (by simp [htf])]
          have hamc : amendedCount verse.isSome ((t, c) :: rest) =
              amendedCount verse.isSome rest := by
            rw [amendedCount, if_neg (by simp [hvf])]
          rw [extractGo, if_neg h1, if_neg h2, if_neg h3,
            ih _ _ _ _ _ _ hOK, hseg, hamc]

/-- C7 (amended): the number of verses emitted by the extractor equals the
number of verse-number rows that are both preceded (inclusively) by some
digit-bearing verse-number row and followed by at least one nonempty
scripture-text row before the next verse-number row or the end of input.
(The claim's count, without the digit condition, is refuted by
the counterexample: text after a digitless first verse-number row is
dropped, because no current verse number is ever set.) -/
theorem c7_verse_count_amended (book : Str) (rows : List (Str × Str)) :
    (extract_xlsx_structure book rows).1.length = amendedCount false rows := by
  rw [extract_xlsx_structure, extractGo_length book rows _ _ _ _ _ _ partsOK_nil]
  simp

/-- C7 counterexample: a digitless verse-number row followed by a scripture
text row.  The claim counts one emitted verse; the code emits none, since
the digitless row never sets a current verse number. -/
theorem c7_counterexample :
    claimCount [(verseTag, ['x']), (textTag, ['a'])] = 1 ∧
    (extract_xlsx_structure "Genesis".toList
      [(verseTag, ['x']), (textTag, ['a'])]).1.length = 0 :=
  ⟨by decide, by decide⟩

/-- C8: evaluating the extractor on rows where a chapter-number row stands
between a verse's text and the next verse-number row.  The verse whose text
accumulated during chapter 1 is emitted tagged "Genesis 2:1" — the chapter
current at flush time — not "Genesis 1:1" as the spec requires. -/
theorem c8_code_evaluation :
    ((extract_xlsx_structure "Genesis".toList
        [(chapterTag, ['1']), (verseTag, ['1']),
         (textTag, "In the beginning".toList), (chapterTag, ['2']),
         (verseTag, ['1']), (textTag, "next text".toList)]).1.map
      (fun v => v.ref)) =
      ["Genesis 2:1".toList, "Genesis 2:1".toList] ∧
    "Genesis 2:1".toList ≠ "Genesis 1:1".toList :=
  ⟨by decide, by decide⟩

theorem leadsWith_append_self (n y : Str) : leadsWith n (n ++ y) = true := by
  induction n with
  | nil => rfl
  | cons c t ih => simp [leadsWith, ih]

theorem isSubstr_nil_left (y : Str) : isSubstr [] y = true := by
  induction y with
  | nil => rfl
  | cons c t ih => rw [isSubstr]; simp [leadsWith]

theorem isSubstr_append_self (n y : Str) : isSubstr n (n ++ y) = true := by
  cases n with
  | nil => exact isSubstr_nil_left y
  | cons c t =>
    rw [List.cons_append, isSubstr]
    have h := leadsWith_append_self (c :: t) y
    rw [List.cons_append] at h
    simp [h]

theorem isSubstr_append_left (x n m : Str) (h : isSubstr n m = true) :
    isSubstr n (x ++ m) = true := by
  induction x with
  | nil => exact h
  | cons c t ih =>
    rw [List.cons_append, isSubstr]
    simp [ih]

theorem isSubstr_of_decomp (n s x y : Str) (h : s = x ++ (n ++ y)) :
    isSubstr n s = true := by
  rw [h]
  exact isSubstr_append_left x n _ (isSubstr_append_self n y)

/-- C9: if any color's detected count differs from its written count, the
first-page summary note contains, for each color with missing notes, the
phrase reporting the expected count, the written count and the missing
count; when all four match, the note is the confirmation sentence. -/
theorem c9_summary_note (cc ac : ColorCounts) :
    (allGood cc ac → summaryText cc ac =
      "All comments were successfully written into the PDF.".toList) ∧
    (ac.red < cc.red →
      isSubstr (diffPhrase cc.red ac.red) (summaryText cc ac) = true) ∧
    (ac.yellow < cc.yellow →
      isSubstr (diffPhrase cc.yellow ac.yellow) (summaryText cc ac) = true) ∧
    (ac.purple < cc.purple →
      isSubstr (diffPhrase cc.purple ac.purple) (summaryText cc ac) = true) ∧
    (ac.orange < cc.orange →
      isSubstr (diffPhrase cc.orange ac.orange) (summaryText cc ac) = true) := by
  refine ⟨fun hg => by rw [summaryText, if_pos hg], ?_, ?_, ?_, ?_⟩
  · intro h
    have hne : ¬ cc.red = ac.red := by omega
    have hall : ¬ allGood cc ac := fun hg => hne hg.1
    rw [summaryText, if_neg hall, colorLine, if_neg hne]
    refine isSubstr_of_decomp _ _
      ("MISSING ANNOTATIONS:\n\n".toList ++ "ANNOTATION SUMMARY:\n\n".toList ++
        "RED".toList ++ ": ".toList)
      ("\n".toList ++
        (colorLine "YELLOW".toList cc.yellow ac.yellow ++
          (colorLine "PURPLE".toList cc.purple ac.purple ++
            colorLine "ORANGE".toList cc.orange ac.orange))) ?_
    simp [List.append_assoc]
  · intro h
    have hne : ¬ cc.yellow = ac.yellow := by omega
    have hall : ¬ allGood cc ac := fun hg => hne hg.2.1
    rw [summaryText, if_neg hall]
    rw [show colorLine "YELLOW".toList cc.yellow ac.yellow =
      "YELLOW".toList ++ ": ".toList ++ diffPhrase cc.yellow ac.yellow ++
        "\n".toList from by rw [colorLine, if_neg hne]]
    refine isSubstr_of_decomp _ _
      ("MISSING ANNOTATIONS:\n\n".toList ++ "ANNOTATION SUMMARY:\n\n".toList ++
        colorLine "RED".toList cc.red ac.red ++ "YELLOW".toList ++ ": ".toList)
      ("\n".toList ++
        (colorLine "PURPLE".toList cc.purple ac.purple ++
          colorLine "ORANGE".toList cc.orange ac.orange)) ?_
    simp [List.append_assoc]
  · intro h
    have hne : ¬ cc.purple = ac.purple := by omega
    have hall : ¬ allGood cc ac := fun hg => hne hg.2.2.1
    rw [summaryText, if_neg hall]
    rw [show colorLine "PURPLE".toList cc.purple ac.purple =
      "PURPLE".toList ++ ": ".toList ++ diffPhrase cc.purple ac.purple ++
        "\n".toList from by rw [colorLine, if_neg hne]]
    refine isSubstr_of_decomp _ _
      ("MISSING ANNOTATIONS:\n\n".toList ++ "ANNOTATION SUMMARY:\n\n".toList ++
        colorLine "RED".toList cc.red ac.red ++
        colorLine "YELLOW".toList cc.yellow ac.yellow ++
        "PURPLE".toList ++ ": ".toList)
      ("\n".toList ++ colorLine "ORANGE".toList cc.orange ac.orange) ?_
    simp [List.append_assoc]
  · intro h
    have hne : ¬ cc.orange = ac.orange := by omega
    have hall : ¬ allGood cc ac := fun hg => hne hg.2.2.2
    rw [summaryText, if_neg hall]
    rw [show colorLine "ORANGE".toList cc.orange ac.orange =
      "ORANGE".toList ++ ": ".toList ++ diffPhrase cc.orange ac.orange ++
        "\n".toList from by rw [colorLine, if_neg hne]]
    refine isSubstr_of_decomp _ _
      ("MISSING ANNOTATIONS:\n\n".toList ++ "ANNOTATION SUMMARY:\n\n".toList ++
        colorLine "RED".toList cc.red ac.red ++
        colorLine "YELLOW".toList cc.yellow ac.yellow ++
        colorLine "PURPLE".toList cc.purple ac.purple ++
        "ORANGE".toList ++ ": ".toList)
      ("\n".toList) ?_
    simp [List.append_assoc]

/-- C9 witness: 5 RED cells detected, 4 written — the note contains
"5 expected, 4 written. 1 missing"; with matching counts the note is the
confirmation sentence. -/
theorem c9_witness :
    (4 < 5 ∧ isSubstr (diffPhrase 5 4)
      (summaryText ⟨5, 0, 0, 0⟩ ⟨4, 0, 0, 0⟩) = true) ∧
    (allGood ⟨2, 0, 0, 0⟩ ⟨2, 0, 0, 0⟩ ∧
      summaryText ⟨2, 0, 0, 0⟩ ⟨2, 0, 0, 0⟩ =
        "All comments were successfully written into the PDF.".toList) :=
  ⟨⟨by decide, (c9_summary_note ⟨5, 0, 0, 0⟩ ⟨4, 0, 0, 0⟩).2.1 (by decide)⟩,
   ⟨by decide, (c9_summary_note ⟨2, 0, 0, 0⟩ ⟨2, 0, 0, 0⟩).1 (by decide)⟩⟩

theorem parseLine_some (line : Str) (vnum : Str)
    (h : (parseLine line).1 = some vnum) :
    vnum ≠ [] ∧ ∀ ch ∈ vnum, ch.isDigit = true := by
  rw [parseLine] at h
  by_cases hd : line.takeWhile Char.isDigit ≠ []
  · rw [if_pos hd] at h
    simp only [] at h
    have hv : line.takeWhile Char.isDigit = vnum := by
      simpa using h
    subst hv
    exact ⟨hd, fun ch hch => List.mem_takeWhile_imp hch⟩
  · rw [if_neg hd] at h
    simp at h

theorem findVerse06_spec (ratio : Str → Str → ℚ)
    (used : List (Option Str × Str)) (vnum frag : Str) :
    ∀ (vs : List (Option Str × Str × Str)) (p : Option Str × Str),
      findVerse06 ratio used vnum frag vs = some p →
      p ∉ used ∧ p.2 = vnum ∧ ∃ b, (p.1, p.2, b) ∈ vs := by
  intro vs
  induction vs with
  | nil => intro p h; simp [findVerse06] at h
  | cons v rest ih =>
    intro p h
    rcases v with ⟨chap, verse, body⟩
    by_cases h1 : (chap, verse) ∈ used
    · rw [findVerse06, if_pos h1] at h
      rcases ih p h with ⟨ha, hb, b, hc⟩
      exact ⟨ha, hb, b, List.mem_cons_of_mem _ hc⟩
    · rw [findVerse06, if_neg h1] at h
      by_cases h2 : verse = vnum
      · rw [if_pos h2] at h
        by_cases h3 : (80:ℚ) ≤ ratio (lowerStr frag) (lowerStr body)
        · rw [if_pos h3] at h
          cases h
          exact ⟨h1, h2, body, by simp⟩
        · rw [if_neg h3] at h
          rcases ih p h with ⟨ha, hb, b, hc⟩
          exact ⟨ha, hb, b, List.mem_cons_of_mem _ hc⟩
      · rw [if_neg h2] at h
        rcases ih p h with ⟨ha, hb, b, hc⟩
        exact ⟨ha, hb, b, List.mem_cons_of_mem _ hc⟩

theorem findLineMatch_spec (ratio : Str → Str → ℚ)
    (verses : List (Option Str × Str × Str)) (used : List (Option Str × Str))
    (line : Str) (p : Option Str × Str)
    (h : findLineMatch ratio verses used line = some p) :
    p ∉ used ∧ (∃ b, (p.1, p.2, b) ∈ verses) ∧
      ∀ ch ∈ p.2, ch.isDigit = true := by
  rw [findLineMatch] at h
  cases hp : (parseLine line).1 with
  | none => rw [hp] at h; simp at h
  | some vnum =>
    rw [hp] at h
    rcases findVerse06_spec ratio used vnum (parseLine line).2 verses p h with
      ⟨h1, h2, b, h3⟩
    rcases parseLine_some line vnum hp with ⟨_, hdig⟩
    exact ⟨h1, ⟨b, h3⟩, by rw [h2]; exact hdig⟩

theorem match06Go_mem_matched (ratio : Str → Str → ℚ)
    (verses : List (Option Str × Str × Str)) :
    ∀ (lines : List Str) (used : List (Option Str × Str)) (r : Str × Str),
      r ∈ match06Go ratio verses used lines → r.1 ≠ notMatched →
      ∃ q : Option Str × Str, r.1 = refStr06 q.1 q.2 ∧ q ∉ used ∧
        (∃ b, (q.1, q.2, b) ∈ verses) ∧ ∀ ch ∈ q.2, ch.isDigit = true := by
  intro lines
  induction lines with
  | nil => intro used r h _; simp [match06Go] at h
  | cons line rest ih =>
    intro used r hmem hnm
    cases hf : findLineMatch ratio verses used line with
    | none =>
      rw [match06Go, hf] at hmem
      rcases List.mem_cons.mp hmem with rfl | hm'
      · exact absurd rfl hnm
      · exact ih used r hm' hnm
    | some p =>
      rw [match06Go, hf] at hmem
      rcases List.mem_cons.mp hmem with rfl | hm'
      · rcases findLineMatch_spec ratio verses used line p hf with ⟨h1, h2, h3⟩
        exact ⟨p, rfl, h1, h2, h3⟩
      · rcases ih (used ++ [p]) r hm' hnm with ⟨q, hq1, hq2, hq3, hq4⟩
        exact ⟨q, hq1, fun hq => hq2 (List.mem_append.mpr (Or.inl hq)),
          hq3, hq4⟩

theorem splitAtColon :
    ∀ (a1 : Str) (a2 b1 b2 : Str), ':' ∉ a1 → ':' ∉ a2 →
      a1 ++ ':' :: b1 = a2 ++ ':' :: b2 → a1 = a2 ∧ b1 = b2 := by
  intro a1
  induction a1 with
  | nil =>
    intro a2 b1 b2 _ h2 heq
    cases a2 with
    | nil =>
      simp only [List.nil_append] at heq
      exact ⟨rfl, by simpa using heq⟩
    | cons x t =>
      simp only [List.nil_append, List.cons_append, List.cons.injEq] at heq
      exact absurd (by rw [heq.1]; exact List.mem_cons_self x t) h2
  | cons x t ih =>
    intro a2 b1 b2 h1 h2 heq
    cases a2 with
    | nil =>
      simp only [List.nil_append, List.cons_append, List.cons.injEq] at heq
      exact absurd (by rw [← heq.1]; exact List.mem_cons_self x t) h1
    | cons y s =>
      simp only [List.cons_append, List.cons.injEq] at heq
      rcases ih s b1 b2 (fun hm => h1 (List.mem_cons_of_mem _ hm))
        (fun hm => h2 (List.mem_cons_of_mem _ hm)) heq.2 with ⟨ha, hb⟩
      exact ⟨by rw [heq.1, ha], hb⟩

theorem chapRender_inj (c1 c2 : Option Str)
    (h1 : c1 ≠ some ("None".toList)) (h2 : c2 ≠ some ("None".toList))
    (h : chapRender c1 = chapRender c2) : c1 = c2 := by
  cases c1 with
  | none =>
    cases c2 with
    | none => rfl
    | some s =>
      exact absurd (by rw [show s = "None".toList from h.symm]) h2
  | some s =>
    cases c2 with
    | none =>
      exact absurd (by rw [show s = "None".toList from h]) h1
    | some u =>
      rw [show s = u from h]

theorem refStr06_inj (c1 c2 : Option Str) (v1 v2 : Str)
    (h1 : c1 ≠ some ("None".toList)) (h2 : c2 ≠ some ("None".toList))
    (hv1 : ∀ ch ∈ v1, ch.isDigit = true) (hv2 : ∀ ch ∈ v2, ch.isDigit = true)
    (heq : refStr06 c1 v1 = refStr06 c2 v2) : c1 = c2 ∧ v1 = v2 := by
  rw [refStr06, refStr06, List.append_assoc, List.append_assoc] at heq
  have heq2 : chapRender c1 ++ ':' :: v1 = chapRender c2 ++ ':' :: v2 :=
    List.append_inj_right heq rfl
  have hrev := congrArg List.reverse heq2
  simp only [List.reverse_append, List.reverse_cons, List.append_assoc,
    List.singleton_append] at hrev
  have hcol1 : ':' ∉ v1.reverse := by
    intro hm
    have := hv1 ':' (List.mem_reverse.mp hm)
    simp at this
  have hcol2 : ':' ∉ v2.reverse := by
    intro hm
    have := hv2 ':' (List.mem_reverse.mp hm)
    simp at this
  rcases splitAtColon v1.reverse v2.reverse (chapRender c1).reverse
    (chapRender c2).reverse hcol1 hcol2 hrev with ⟨hv, hc⟩
  have hveq : v1 = v2 := by
    have := congrArg List.reverse hv
    simpa using this
  have hceq : chapRender c1 = chapRender c2 := by
    have := congrArg List.reverse hc
    simpa using this
  exact ⟨chapRender_inj c1 c2 h1 h2 hceq, hveq⟩

theorem match06Go_pairwise (ratio : Str → Str → ℚ)
    (verses : List (Option Str × Str × Str))
    (H : ∀ v ∈ verses, v.1 ≠ some ("None".toList)) :
    ∀ (lines : List Str) (used : List (Option Str × Str)),
      List.Pairwise (fun r s => r.1 ≠ notMatched → s.1 ≠ notMatched →
        r.1 ≠ s.1) (match06Go ratio verses used lines) := by
  intro lines
  induction lines with
  | nil =>
    intro used
    exact List.Pairwise.nil
  | cons line rest ih =>
    intro used
    cases hf : findLineMatch ratio verses used line with
    | none =>
      rw [match06Go, hf]
      refine List.Pairwise.cons ?_ (ih used)
      intro s hs h1 h2
      exact absurd rfl h1
    | some p =>
      rw [match06Go, hf]
      refine List.Pairwise.cons ?_ (ih (used ++ [p]))
      intro s hs h1 h2 hcontra
      rcases match06Go_mem_matched ratio verses rest (used ++ [p]) s hs h2 with
        ⟨q, hq1, hq2, ⟨b, hqb⟩, hq5⟩
      rcases findLineMatch_spec ratio verses used line p hf with
        ⟨hpu, ⟨bp, hpb⟩, hpd⟩
      rw [hq1] at hcontra
      rcases refStr06_inj p.1 q.1 p.2 q.2
        (H (p.1, p.2, bp) hpb) (H (q.1, q.2, b) hqb) hpd hq5 hcontra with
        ⟨hc, hv⟩
      have hqp : q = p := by
        rcases p with ⟨pc, pv⟩
        rcases q with ⟨qc, qv⟩
        simp only [] at hc hv
        rw [hc, hv]
      exact hq2 (by rw [hqp]; exact List.mem_append.mpr (Or.inr (by simp)))

/-- C10 (amended): in the line-to-verse matcher, each (chapter, verse) pair
is assigned to at most one input line, and any two distinct matched output
rows carry distinct reference strings — provided no verse's chapter content
is the literal text "None", which renders identically to the missing-chapter
placeholder `None` (the counterexample shows the reference strings can
otherwise coincide). -/
theorem c10_used_verses_amended (ratio : Str → Str → ℚ)
    (verses : List (Option Str × Str × Str)) (lines : List Str)
    (H : ∀ v ∈ verses, v.1 ≠ some ("None".toList)) :
    List.Pairwise (fun r s => r.1 ≠ notMatched → s.1 ≠ notMatched →
      r.1 ≠ s.1) (match06 ratio verses lines) :=
  match06Go_pairwise ratio verses H lines []

/-- C10 witness: a concrete run with an honest chapter label. -/
theorem c10_witness :
    (∀ v ∈ [((some ['1'], ['1'], ['x']) : Option Str × Str × Str)],
      v.1 ≠ some ("None".toList)) ∧
    List.Pairwise (fun r s => r.1 ≠ notMatched → s.1 ≠ notMatched →
      r.1 ≠ s.1)
      (match06 standInScore [(some ['1'], ['1'], ['x'])]
        ["1 x".toList]) :=
  ⟨by decide,
   c10_used_verses_amended standInScore [(some ['1'], ['1'], ['x'])]
     ["1 x".toList] (by decide)⟩

/-- C10 counterexample: a corpus built by the script's own extractor in
which one verse precedes any chapter row (chapter `None`) and another sits
under a chapter whose cell text is literally "None".  Two distinct matched
output rows then carry the same reference "Genesis None:3". -/
theorem c10_counterexample :
    match06 standInScore
        (extract06 [("VERSE NUMBERS".toList, ['3']),
          ("SCRIPTURE TEXT FONTS".toList, "abc".toList),
          ("VERSE NUMBERS".toList, ['4']),
          ("CHAPTER NUMBERS".toList, "None".toList),
          ("VERSE NUMBERS".toList, ['3']),
          ("SCRIPTURE TEXT FONTS".toList, "abcd".toList)])
        ["3 abc".toList, "3 abcd".toList] =
      [("Genesis None:3".toList, "3 abc".toList),
       ("Genesis None:3".toList, "3 abcd".toList)] ∧
    "Genesis None:3".toList ≠ notMatched ∧
    ("3 abc".toList : Str) ≠ "3 abcd".toList :=
  ⟨by decide, by decide, by decide⟩
